import Mathlib

/-!
Shallow embedding of `src/d_graph.py` (class `DirectedGraph`) and proofs of the
spec claims about it.

Modelling conventions:
* Python `int` is `Int`; the adjacency matrix is `List (List Int)`.
* Python list indexing `xs[i]` on indices produced by `range` is modelled with
  `List.getD`; all such accesses are made by the source only at in-range,
  non-negative indices on well-formed states, where `getD` agrees with Python.
* `float('inf')` in `dijkstra` is modelled by `Option Int` with `none` = +inf;
  `inf + w = inf` and `inf < x = False` are captured by `oadd` / `olt` below.
* Python functions that can return `None` are modelled with `Option`.
* The unbounded `while` loops (`dfs`, `bfs`, `has_cycle_helper`, `dijkstra`)
  are modelled with an explicit fuel parameter, `none` meaning fuel ran out;
  for `has_cycle` and `dijkstra` we prove an explicit fuel bound always
  suffices (the loops terminate), which is claim C9.
-/

namespace DG

/-- State of a `DirectedGraph` object: `self.v_count` and `self.adj_matrix`. -/
structure DGraph where
  v_count : Nat
  adj_matrix : List (List Int)
deriving DecidableEq

/-- Entry `self.adj_matrix[i][j]` (0 when out of range, which matches the
source on well-formed states where all accesses are in range). -/
def wt (g : DGraph) (i j : Nat) : Int := (g.adj_matrix.getD i []).getD j 0

/-- `self.adj_matrix[i].append(0)`. -/
def appendZeroAt (m : List (List Int)) (i : Nat) : List (List Int) :=
  m.set i ((m.getD i []) ++ [0])

/-- `add_vertex`: append a row `[0]`, bump `v_count`, pad the new row to the
new width, then append one `0` to every old row.  Returns the new state; the
Python return value is the new `v_count` field. -/
def add_vertex (g : DGraph) : DGraph :=
  let m1 := g.adj_matrix ++ [[0]]
  let vc := g.v_count + 1
  let m2 := m1.set (vc - 1) ((m1.getD (vc - 1) []) ++ List.replicate (vc - 1) 0)
  let m3 := (List.range (vc - 1)).foldl appendZeroAt m2
  { v_count := vc, adj_matrix := m3 }

/-- `self.adj_matrix[i][j] = w`. -/
def setEntry (m : List (List Int)) (i j : Nat) (w : Int) : List (List Int) :=
  m.set i ((m.getD i []).set j w)

/-- `add_edge(src, dst, weight)`: silent no-op unless `src`, `dst` in range,
`src != dst`, `weight >= 1`; otherwise `adj_matrix[src][dst] = weight`. -/
def add_edge (g : DGraph) (src dst : Int) (weight : Int) : DGraph :=
  if src ≥ (g.v_count : Int) ∨ dst ≥ (g.v_count : Int) ∨ weight < 1 ∨ src = dst
      ∨ src < 0 ∨ dst < 0 then g
  else { g with adj_matrix := setEntry g.adj_matrix src.toNat dst.toNat weight }

/-- `remove_edge(src, dst)`: silent no-op unless both in range; otherwise
`adj_matrix[src][dst] = 0`. -/
def remove_edge (g : DGraph) (src dst : Int) : DGraph :=
  if src ≥ (g.v_count : Int) ∨ dst ≥ (g.v_count : Int) ∨ src < 0 ∨ dst < 0 then g
  else { g with adj_matrix := setEntry g.adj_matrix src.toNat dst.toNat 0 }

/-- The state `DirectedGraph()` starts from: `v_count = 0`, `adj_matrix = []`. -/
def emptyGraph : DGraph := { v_count := 0, adj_matrix := [] }

/-- `__init__(start_edges)`: with `start_edges=None` the empty state; otherwise
compute the running maximum of all endpoints starting from 0, call
`add_vertex` that maximum + 1 times, then `add_edge` for each triple. -/
def initGraph : Option (List (Int × Int × Int)) → DGraph
  | none => emptyGraph
  | some start_edges =>
    let vmax := start_edges.foldl (fun a e => max (max a e.1) e.2.1) 0
    let g0 := (List.range (vmax.toNat + 1)).foldl (fun g _ => add_vertex g) emptyGraph
    start_edges.foldl (fun g e => add_edge g e.1 e.2.1 e.2.2) g0

/-- `get_vertices()`: the list `[0, ..., v_count - 1]`. -/
def get_vertices (g : DGraph) : List Nat := List.range g.v_count

/-- `get_edges()`: all `(i, j, adj_matrix[i][j])` with positive entry, `i`
ascending then `j` ascending. -/
def get_edges (g : DGraph) : List (Nat × Nat × Int) :=
  (List.range g.v_count).flatMap fun i =>
    (List.range g.v_count).filterMap fun j =>
      if wt g i j > 0 then some (i, j, wt g i j) else none

/-- `is_valid_path(path)`: `False` iff some consecutive pair has matrix entry
`== 0`.  (The source trusts the indices to be in range; the claims only
quantify over in-range index sequences, so indices are `Nat` here.) -/
def is_valid_path (g : DGraph) (path : List Nat) : Bool :=
  if path.length > 1 then
    (List.range (path.length - 1)).all fun i =>
      decide (wt g (path.getD i 0) (path.getD (i + 1) 0) ≠ 0)
  else true

/-- The shared neighbor scan of `dfs`/`bfs`: walk the index list `idxs`
(descending for `dfs`, ascending for `bfs`), append each unvisited positive
neighbor to the pending container `acc`, and after each push test
`i == v_end`, returning `Sum.inr` with `i` appended to `visited` on a hit
(the early `return visited`). -/
def scanPush (v_end : Option Int) (row : List Int) (visited : List Int) :
    List Nat → List Int → Sum (List Int) (List Int)
  | [], acc => Sum.inl acc
  | i :: rest, acc =>
    let acc' := if row.getD i 0 > 0 ∧ ((i : Int) ∉ visited) then acc ++ [(i : Int)]
                else acc
    if v_end = some (i : Int) then Sum.inr (visited ++ [(i : Int)])
    else scanPush v_end row visited rest acc'

/-- The `while stack:` loop of `dfs`.  `stack.pop()` removes the last element;
the scan runs over `range(len(v) - 1, -1, -1)`. -/
def dfsLoop (g : DGraph) (v_end : Option Int) : Nat → List Int → List Int → Option (List Int)
  | 0, _, _ => none
  | _ + 1, [], visited => some visited
  | fuel + 1, s :: ss, visited =>
    let index := (s :: ss).getLast (List.cons_ne_nil s ss)
    let rest := (s :: ss).dropLast
    let visited1 := if index ∈ visited then visited else visited ++ [index]
    let row := g.adj_matrix.getD index.toNat []
    match scanPush v_end row visited1 (List.range row.length).reverse rest with
    | Sum.inr vis => some vis
    | Sum.inl stack' => dfsLoop g v_end fuel stack' visited1

/-- Fuel that vastly exceeds any possible number of `dfs`/`bfs` iterations. -/
def travFuel (g : DGraph) : Nat := 2 ^ (g.v_count * g.v_count + g.v_count + 1)

/-- `dfs(v_start, v_end)`.  The source's branch structure is
`if` invalid start: `return visited` (= `[]`); `elif v_end is not None:`
normalize an out-of-range `v_end` to `None` and then *fall off the end of the
function*, implicitly returning `None` (modelled by `none`); `else:` run the
stack loop and return the visited list. -/
def dfs (g : DGraph) (v_start : Int) (v_end : Option Int) : Option (List Int) :=
  if v_start < 0 ∨ v_start ≥ (g.adj_matrix.length : Int) then some []
  else if v_end.isSome then none
  else dfsLoop g v_end (travFuel g) [v_start] []

/-- The `while queue:` loop of `bfs`.  `queue.pop(0)` removes the first
element; the scan runs over `range(self.v_count)` ascending. -/
def bfsLoop (g : DGraph) (v_end : Option Int) : Nat → List Int → List Int → Option (List Int)
  | 0, _, _ => none
  | _ + 1, [], visited => some visited
  | fuel + 1, q :: qs, visited =>
    let visited1 := if q ∈ visited then visited else visited ++ [q]
    let row := g.adj_matrix.getD q.toNat []
    match scanPush v_end row visited1 (List.range g.v_count) qs with
    | Sum.inr vis => some vis
    | Sum.inl queue' => bfsLoop g v_end fuel queue' visited1

/-- `bfs(v_start, v_end)`: same branch structure as `dfs`, so a supplied
target again makes the function return `None`. -/
def bfs (g : DGraph) (v_start : Int) (v_end : Option Int) : Option (List Int) :=
  if v_start < 0 ∨ v_start ≥ (g.adj_matrix.length : Int) then some []
  else if v_end.isSome then none
  else bfsLoop g v_end (travFuel g) [v_start] []

/-- The successor list `[j for j in range(v_count) if adj_matrix[v][j] > 0]`
built (ascending) in both `has_cycle` and `has_cycle_helper`. -/
def succList (g : DGraph) (v : Nat) : List Nat :=
  (List.range g.v_count).filter fun j => decide (wt g v j > 0)

/-- `has_cycle_helper(vertex, visited, stack)`.  The stack argument is given
in pop order (Python pops from the end, so a successor list pushed ascending
is popped descending, hence the `.reverse` at each call site).  Each recursive
call of the Python function consumes one unit of fuel; `none` means the fuel
ran out (we prove `3 * v_count + 3` never does). -/
def hchAux (g : DGraph) : Nat → Nat → List Nat → List Nat → Option Bool
  | _, _, _, [] => some false
  | fuel, vertex, visited, v :: rest =>
    if visited.any fun u => decide (wt g v u > 0) then some true
    else if _hf : fuel = 0 then none
    else
      match hchAux g (fuel - 1) v (visited ++ [vertex]) (succList g v).reverse with
      | some true => some true
      | some false => hchAux g fuel vertex visited rest
      | none => none
  termination_by fuel _ _ stack => (fuel, stack.length)
  decreasing_by
  all_goals simp only [List.length_cons]
  all_goals first
  | exact Prod.Lex.right _ (by omega)
  | exact Prod.Lex.left _ _ (by omega)

/-- The inner `for adjacent in adjacent_list:` loop of `has_cycle` for root
`i` (the list is traversed in its own ascending order). -/
def hcScan (g : DGraph) (fuel i : Nat) : List Nat → Option Bool
  | [] => some false
  | a :: rest =>
    match hchAux g fuel a [i] (succList g a).reverse with
    | some true => some true
    | some false => hcScan g fuel i rest
    | none => none

/-- The outer `for i in range(self.v_count):` loop of `has_cycle`. -/
def hcOuter (g : DGraph) (fuel : Nat) : List Nat → Option Bool
  | [] => some false
  | i :: rest =>
    match hcScan g fuel i (succList g i) with
    | some true => some true
    | some false => hcOuter g fuel rest
    | none => none

/-- Fuel sufficient for every `has_cycle_helper` recursion (proved below). -/
def hcFuel (g : DGraph) : Nat := 3 * g.v_count + 3

/-- `has_cycle()`. -/
def has_cycle (g : DGraph) : Option Bool := hcOuter g (hcFuel g) (List.range g.v_count)

/-- `a < b` on distances, where `none` is `float('inf')`: `inf < x` is
`False`, `x < inf` is `True` for finite `x`. -/
def olt : Option Int → Option Int → Bool
  | none, _ => false
  | some _, none => true
  | some a, some b => decide (a < b)

/-- `a + w` on distances: `inf + w = inf`. -/
def oadd : Option Int → Int → Option Int
  | none, _ => none
  | some a, w => some (a + w)

/-- One step `i` of the relaxation loop body of `dijkstra`: if
`adj_matrix[v][i] > 0` and `distances[v] + adj_matrix[v][i] < distances[i]`,
update `distances[i]` and enqueue `i` unless it is already pending. -/
def relaxStep (g : DGraph) (v : Nat) (dq : List (Option Int) × List Nat) (i : Nat) :
    List (Option Int) × List Nat :=
  if wt g v i > 0 then
    if olt (oadd (dq.1.getD v none) (wt g v i)) (dq.1.getD i none) then
      (dq.1.set i (oadd (dq.1.getD v none) (wt g v i)),
        if i ∈ dq.2 then dq.2 else dq.2 ++ [i])
    else dq
  else dq

/-- `for i in range(self.v_count):` relaxation of all edges out of `v`. -/
def relaxAll (g : DGraph) (v : Nat) (dq : List (Option Int) × List Nat) :
    List (Option Int) × List Nat :=
  (List.range g.v_count).foldl (relaxStep g v) dq

/-- The `while queue:` loop of `dijkstra`; `queue.pop(0)` is FIFO. -/
def dijkstraLoop (g : DGraph) : Nat → List (Option Int) → List Nat → Option (List (Option Int))
  | _, d, [] => some d
  | 0, _, _ :: _ => none
  | fuel + 1, d, v :: queue =>
    let dq := relaxAll g v (d, queue)
    dijkstraLoop g fuel dq.1 dq.2

/-- Sum of all positive matrix entries (every trail weight is at most this). -/
def totalW (g : DGraph) : Int :=
  ∑ p ∈ (Finset.range g.v_count ×ˢ Finset.range g.v_count).filter
      (fun p => 0 < wt g p.1 p.2), wt g p.1 p.2

/-- Fuel sufficient for every `dijkstra` run (proved below). -/
def dijkFuel (g : DGraph) : Nat :=
  g.v_count * ((totalW g).toNat + 1) * (g.v_count + 1) + 2

/-- `dijkstra(src)`: distances all `inf` except `distances[src] = 0`, queue
seeded with `[src]`.  (The source indexes `distances[src]` unguarded, so it
is only called with `src` in range; the claims carry that hypothesis.) -/
def dijkstra (g : DGraph) (src : Nat) : Option (List (Option Int)) :=
  dijkstraLoop g (dijkFuel g) ((List.replicate g.v_count none).set src (some 0)) [src]

/-! ## Well-formedness and basic lemmas -/

/-- The stored matrix invariants of the spec (section 3, invariants 1-3):
square of side `v_count`, zero diagonal, non-negative entries.  Rows are
addressed through `getD`, matching every access the source makes. -/
def Wf (g : DGraph) : Prop :=
  g.adj_matrix.length = g.v_count
  ∧ (∀ i < g.v_count, (g.adj_matrix.getD i []).length = g.v_count)
  ∧ (∀ i < g.v_count, wt g i i = 0)
  ∧ (∀ i < g.v_count, ∀ j < g.v_count, 0 ≤ wt g i j)

instance (g : DGraph) : Decidable (Wf g) := by
  unfold Wf; infer_instance

theorem getD_set {α : Type} (l : List α) (i j : Nat) (a d : α) :
    (l.set i a).getD j d = if i = j ∧ i < l.length then a else l.getD j d := by
  rcases Nat.lt_or_ge j l.length with hj | hj
  · simp only [List.getD, List.getElem?_set, hj]
    by_cases hij : i = j
    · simp [hij, hj]
    · simp [hij]
  · have h2 : (l.set i a).length ≤ j := by simpa using hj
    rw [List.getD_eq_default _ _ h2]
    have hno : ¬ (i = j ∧ i < l.length) := by rintro ⟨rfl, h⟩; omega
    rw [if_neg hno, List.getD_eq_default _ _ hj]

theorem getD_append_left {α : Type} (l l' : List α) (j : Nat) (d : α)
    (h : j < l.length) : (l ++ l').getD j d = l.getD j d := by
  simp [List.getD, List.getElem?_append, h]

theorem getD_append_right {α : Type} (l l' : List α) (j : Nat) (d : α)
    (h : l.length ≤ j) : (l ++ l').getD j d = l'.getD (j - l.length) d := by
  simp [List.getD, List.getElem?_append, Nat.not_lt.mpr h]

/-- Out-of-range entries read as 0 on well-formed states. -/
theorem wt_out (g : DGraph) (hw : Wf g) (i j : Nat)
    (h : g.v_count ≤ i ∨ g.v_count ≤ j) : wt g i j = 0 := by
  rcases h with h | h
  · have hrow : g.adj_matrix.getD i [] = [] :=
      List.getD_eq_default _ _ (by rw [hw.1]; exact h)
    unfold wt
    rw [hrow]
    simp
  · rcases Nat.lt_or_ge i g.v_count with hi | hi
    · exact List.getD_eq_default _ _ (by rw [hw.2.1 i hi]; exact h)
    · have hrow : g.adj_matrix.getD i [] = [] :=
        List.getD_eq_default _ _ (by rw [hw.1]; exact hi)
      unfold wt
      rw [hrow]
      simp

theorem wt_nonneg (g : DGraph) (hw : Wf g) (i j : Nat) : 0 ≤ wt g i j := by
  rcases Nat.lt_or_ge i g.v_count with hi | hi
  · rcases Nat.lt_or_ge j g.v_count with hj | hj
    · exact hw.2.2.2 i hi j hj
    · rw [wt_out g hw i j (Or.inr hj)]
  · rw [wt_out g hw i j (Or.inl hi)]

/-! ### Mutator characterizations -/

theorem foldl_appendZeroAt (m : List (List Int)) (k : Nat) (hk : k ≤ m.length) :
    (List.range k).foldl appendZeroAt m
      = (m.take k).map (fun r => r ++ [0]) ++ m.drop k := by
  induction k with
  | zero => simp
  | succ k ih =>
    rw [List.range_succ, List.foldl_append, ih (Nat.le_of_succ_le hk)]
    have hkm : k < m.length := hk
    have hlen : ((m.take k).map (fun r => r ++ [0])).length = k := by
      simp [List.length_take, Nat.min_eq_left (Nat.le_of_lt hkm)]
    obtain ⟨row, hrow⟩ : ∃ row, m[k]? = some row := ⟨m[k], List.getElem?_eq_getElem hkm⟩
    have hdrop : m.drop k = row :: m.drop (k + 1) := by
      rw [List.drop_eq_getElem_cons hkm]
      simp [List.getElem?_eq_getElem hkm] at hrow
      rw [hrow]
    simp only [List.foldl_cons, List.foldl_nil, appendZeroAt]
    rw [hdrop]
    have hget : (((m.take k).map (fun r => r ++ [0])) ++ row :: m.drop (k + 1)).getD k []
        = row := by
      rw [getD_append_right _ _ _ _ (le_of_eq hlen), hlen]
      simp
    have hset : (((m.take k).map (fun r => r ++ [0])) ++ row :: m.drop (k + 1)).set k
        (row ++ [0]) = ((m.take k).map (fun r => r ++ [0])) ++ (row ++ [0]) :: m.drop (k + 1) := by
      rw [List.set_append_right _ _ (le_of_eq hlen), hlen, Nat.sub_self]
      simp
    rw [hget, hset, List.take_succ]
    simp [hrow]

/-- On states with `len(adj_matrix) = v_count` (all well-formed states),
`add_vertex` appends a `0` to every old row and adds a fresh zero row. -/
theorem add_vertex_eq (g : DGraph) (h : g.adj_matrix.length = g.v_count) :
    add_vertex g = { v_count := g.v_count + 1,
                     adj_matrix := g.adj_matrix.map (fun r => r ++ [0])
                       ++ [List.replicate (g.v_count + 1) 0] } := by
  unfold add_vertex
  simp only [Nat.add_sub_cancel]
  have h1 : (g.adj_matrix ++ [[0]]).getD g.v_count [] = [0] := by
    rw [getD_append_right _ _ _ _ (le_of_eq h), h]
    simp
  have h2 : (g.adj_matrix ++ [[0]]).set g.v_count ([0] ++ List.replicate g.v_count 0)
      = g.adj_matrix ++ [[0] ++ List.replicate g.v_count 0] := by
    rw [List.set_append_right _ _ (le_of_eq h), h]
    simp
  rw [h1, h2]
  have h3 : ([0] ++ List.replicate g.v_count 0 : List Int)
      = List.replicate (g.v_count + 1) 0 := by
    simp [List.replicate_succ]
  rw [h3]
  have h4 : (g.adj_matrix ++ [List.replicate (g.v_count + 1) 0]).length = g.v_count + 1 := by
    simp [h]
  rw [foldl_appendZeroAt _ _ (by simp [h])]
  have h5 : (g.adj_matrix ++ [List.replicate (g.v_count + 1) 0]).take g.v_count
      = g.adj_matrix := by
    rw [List.take_append_of_le_length (le_of_eq h.symm), h.symm, List.take_length]
  have h6 : (g.adj_matrix ++ [List.replicate (g.v_count + 1) 0]).drop g.v_count
      = [List.replicate (g.v_count + 1) 0] := by
    rw [List.drop_append_of_le_length (le_of_eq h.symm), h.symm]
    simp
  rw [h5, h6]

theorem getD_zero_singleton (k : Nat) : ([0] : List Int).getD k 0 = 0 := by
  cases k <;> simp

theorem getD_zero_replicate (m k : Nat) : (List.replicate m (0 : Int)).getD k 0 = 0 := by
  rcases Nat.lt_or_ge k m with h | h
  · simp [List.getD, List.getElem?_replicate, h]
  · exact List.getD_eq_default _ _ (by simp only [List.length_replicate]; omega)

/-- `add_vertex` does not change any entry read through `wt` (the appended
entries are all 0, which is also what out-of-range reads give). -/
theorem wt_add_vertex (g : DGraph) (hw : Wf g) (i j : Nat) :
    wt (add_vertex g) i j = wt g i j := by
  rw [add_vertex_eq g hw.1]
  unfold wt
  simp only
  rcases Nat.lt_or_ge i g.v_count with hi | hi
  · have hlen : (g.adj_matrix.map (fun r => r ++ [0])).length = g.v_count := by
      simp [hw.1]
    have hrow : ((g.adj_matrix.map (fun r => r ++ [0]))
        ++ [List.replicate (g.v_count + 1) 0]).getD i [] = g.adj_matrix.getD i [] ++ [0] := by
      rw [getD_append_left _ _ _ _ (by rw [hlen]; exact hi)]
      simp [List.getD, List.getElem?_map, hw.1 ▸ hi, List.getElem?_eq_getElem]
    rw [hrow]
    rcases Nat.lt_or_ge j g.v_count with hj | hj
    · rw [getD_append_left _ _ _ _ (by rw [hw.2.1 i hi]; exact hj)]
    · rw [getD_append_right _ _ _ _ (by rw [hw.2.1 i hi]; exact hj)]
      have hjr : wt g i j = 0 := wt_out g hw i j (Or.inr hj)
      unfold wt at hjr
      rw [hjr]
      exact getD_zero_singleton _
  · have hzero : wt g i j = 0 := wt_out g hw i j (Or.inl hi)
    unfold wt at hzero
    rw [hzero]
    rcases Nat.lt_or_ge i (g.v_count + 1) with hi1 | hi1
    · have hieq : i = g.v_count := by omega
      subst hieq
      have : ((g.adj_matrix.map (fun r => r ++ [0]))
          ++ [List.replicate (g.v_count + 1) 0]).getD g.v_count []
          = List.replicate (g.v_count + 1) 0 := by
        rw [getD_append_right _ _ _ _ (by simp [hw.1])]
        simp [hw.1]
      rw [this]
      exact getD_zero_replicate _ _
    · have : ((g.adj_matrix.map (fun r => r ++ [0]))
          ++ [List.replicate (g.v_count + 1) 0]).getD i [] = [] :=
        List.getD_eq_default _ _ (by simp [hw.1]; omega)
      rw [this]
      simp

theorem wf_empty : Wf emptyGraph := by decide

theorem wf_add_vertex (g : DGraph) (hw : Wf g) : Wf (add_vertex g) := by
  have hvc : (add_vertex g).v_count = g.v_count + 1 := by rw [add_vertex_eq g hw.1]
  refine ⟨?_, ?_, ?_, ?_⟩
  · rw [add_vertex_eq g hw.1]
    simp [hw.1]
  · intro i hi
    rw [hvc] at hi
    rw [add_vertex_eq g hw.1]
    simp only
    rcases Nat.lt_or_ge i g.v_count with h2 | h2
    · rw [getD_append_left _ _ _ _ (by simp [hw.1]; exact h2)]
      have hmap : (g.adj_matrix.map (fun r => r ++ [0])).getD i []
          = g.adj_matrix.getD i [] ++ [0] := by
        simp [List.getD, List.getElem?_map, hw.1 ▸ h2, List.getElem?_eq_getElem]
      rw [hmap]
      simp only [List.length_append, List.length_singleton]
      rw [hw.2.1 i h2]
    · have hieq : i = g.v_count := by omega
      subst hieq
      rw [getD_append_right _ _ _ _ (by simp [hw.1])]
      simp [hw.1, hvc]
  · intro i hi
    rw [wt_add_vertex g hw]
    rw [hvc] at hi
    rcases Nat.lt_or_ge i g.v_count with h2 | h2
    · exact hw.2.2.1 i h2
    · exact wt_out g hw i i (Or.inl h2)
  · intro i _ j _
    rw [wt_add_vertex g hw]
    exact wt_nonneg g hw i j

/-- Entry update on a well-formed state. -/
theorem wt_setEntry (g : DGraph) (hw : Wf g) (i j : Nat) (w : Int)
    (hi : i < g.v_count) (hj : j < g.v_count) (a b : Nat) :
    wt { g with adj_matrix := setEntry g.adj_matrix i j w } a b
      = if a = i ∧ b = j then w else wt g a b := by
  unfold wt setEntry
  simp only
  rw [getD_set]
  by_cases hai : i = a
  · subst hai
    rw [if_pos ⟨rfl, by rw [hw.1]; exact hi⟩]
    rw [getD_set]
    by_cases hbj : j = b
    · subst hbj
      rw [if_pos ⟨rfl, by rw [hw.2.1 i hi]; exact hj⟩, if_pos ⟨rfl, rfl⟩]
    · rw [if_neg (by rintro ⟨rfl, _⟩; exact hbj rfl),
          if_neg (by rintro ⟨_, rfl⟩; exact hbj rfl)]
  · rw [if_neg (by rintro ⟨rfl, _⟩; exact hai rfl),
        if_neg (by rintro ⟨rfl, _⟩; exact hai rfl)]

theorem length_setEntry (m : List (List Int)) (i j : Nat) (w : Int) :
    (setEntry m i j w).length = m.length := by
  simp [setEntry]

theorem row_length_setEntry (m : List (List Int)) (i j : Nat) (w : Int) (a : Nat) :
    ((setEntry m i j w).getD a []).length = (m.getD a []).length := by
  unfold setEntry
  rw [getD_set]
  by_cases h : i = a ∧ i < m.length
  · rw [if_pos h]
    obtain ⟨rfl, _⟩ := h
    simp
  · rw [if_neg h]

/-- The bounds that hold in the update branch of `add_edge`/`remove_edge`. -/
theorem edge_branch_bounds {g : DGraph} {src dst : Int}
    (h : ¬(src ≥ (g.v_count : Int) ∨ dst ≥ (g.v_count : Int) ∨ src < 0 ∨ dst < 0)) :
    src.toNat < g.v_count ∧ dst.toNat < g.v_count := by
  push_neg at h
  omega

theorem wf_add_edge (g : DGraph) (src dst w : Int) (hw : Wf g) :
    Wf (add_edge g src dst w) := by
  unfold add_edge
  split
  · exact hw
  · rename_i hcond
    have hb : src.toNat < g.v_count ∧ dst.toNat < g.v_count := by
      push_neg at hcond
      omega
    have hne : src.toNat ≠ dst.toNat := by
      push_neg at hcond
      omega
    have hw1 : (1 : Int) ≤ w := by
      push_neg at hcond
      omega
    refine ⟨?_, ?_, ?_, ?_⟩
    · rw [length_setEntry]
      exact hw.1
    · intro i hi
      rw [row_length_setEntry]
      exact hw.2.1 i hi
    · intro i hi
      rw [wt_setEntry g hw _ _ _ hb.1 hb.2]
      rw [if_neg (by rintro ⟨h1, h2⟩; exact hne (h1.symm.trans h2))]
      exact hw.2.2.1 i hi
    · intro i hi j hj
      rw [wt_setEntry g hw _ _ _ hb.1 hb.2]
      split
      · omega
      · exact hw.2.2.2 i hi j hj

theorem wf_remove_edge (g : DGraph) (src dst : Int) (hw : Wf g) :
    Wf (remove_edge g src dst) := by
  unfold remove_edge
  split
  · exact hw
  · rename_i hcond
    have hb : src.toNat < g.v_count ∧ dst.toNat < g.v_count := edge_branch_bounds hcond
    refine ⟨?_, ?_, ?_, ?_⟩
    · rw [length_setEntry]
      exact hw.1
    · intro i hi
      rw [row_length_setEntry]
      exact hw.2.1 i hi
    · intro i hi
      rw [wt_setEntry g hw _ _ _ hb.1 hb.2]
      split
      · rfl
      · exact hw.2.2.1 i hi
    · intro i hi j hj
      rw [wt_setEntry g hw _ _ _ hb.1 hb.2]
      split
      · omega
      · exact hw.2.2.2 i hi j hj

theorem wf_initGraph (es : Option (List (Int × Int × Int))) : Wf (initGraph es) := by
  match es with
  | none => exact wf_empty
  | some start_edges =>
    unfold initGraph
    simp only
    have h0 : ∀ (k : Nat), Wf ((List.range k).foldl (fun g _ => add_vertex g) emptyGraph) := by
      intro k
      induction k with
      | zero => exact wf_empty
      | succ k ih =>
        rw [List.range_succ, List.foldl_append]
        exact wf_add_vertex _ ih
    have h1 : ∀ (l : List (Int × Int × Int)) (g : DGraph), Wf g →
        Wf (l.foldl (fun g e => add_edge g e.1 e.2.1 e.2.2) g) := by
      intro l
      induction l with
      | nil => intro g hg; exact hg
      | cons e l ih =>
        intro g hg
        exact ih _ (wf_add_edge g e.1 e.2.1 e.2.2 hg)
    exact h1 _ _ (h0 _)

theorem v_count_add_edge (g : DGraph) (src dst w : Int) :
    (add_edge g src dst w).v_count = g.v_count := by
  unfold add_edge
  split <;> rfl

theorem v_count_remove_edge (g : DGraph) (src dst : Int) :
    (remove_edge g src dst).v_count = g.v_count := by
  unfold remove_edge
  split <;> rfl

theorem v_count_add_vertex (g : DGraph) : (add_vertex g).v_count = g.v_count + 1 := rfl

theorem v_count_initGraph_some (es : List (Int × Int × Int)) :
    (initGraph (some es)).v_count
      = (es.foldl (fun (a : Int) (e : Int × Int × Int) => max (max a e.1) e.2.1) 0).toNat + 1 := by
  unfold initGraph
  simp only
  have h0 : ∀ (k : Nat),
      ((List.range k).foldl (fun g _ => add_vertex g) emptyGraph).v_count = k := by
    intro k
    induction k with
    | zero => rfl
    | succ k ih =>
      rw [List.range_succ, List.foldl_append]
      simp [v_count_add_vertex, ih]
  have h1 : ∀ (l : List (Int × Int × Int)) (g : DGraph),
      (l.foldl (fun g e => add_edge g e.1 e.2.1 e.2.2) g).v_count = g.v_count := by
    intro l
    induction l with
    | nil => intro g; rfl
    | cons e l ih =>
      intro g
      rw [List.foldl_cons, ih, v_count_add_edge]
  rw [h1, h0]

/-! ## Claim theorems: construction and mutators -/

/-- Claim C10: `DirectedGraph([])` (empty but non-None edge list) produces
`v_count = 1` with a 1×1 zero matrix, not an empty graph, because the
constructor adds largest-referenced-index + 1 vertices starting from a
running maximum of 0; so it differs from `DirectedGraph(None)`, which gives
the empty graph. -/
theorem claim_C10_init_empty_list :
    initGraph (some []) = { v_count := 1, adj_matrix := [[0]] }
    ∧ initGraph none = { v_count := 0, adj_matrix := [] }
    ∧ initGraph (some []) ≠ initGraph none
    ∧ ∀ es, (initGraph (some es)).v_count
        = (es.foldl (fun (a : Int) (e : Int × Int × Int) => max (max a e.1) e.2.1) 0).toNat + 1 :=
  ⟨by decide, rfl, by decide, v_count_initGraph_some⟩

theorem add_edge_noop (g : DGraph) (src dst w : Int)
    (h : src < 0 ∨ src ≥ (g.v_count : Int) ∨ dst < 0 ∨ dst ≥ (g.v_count : Int)
      ∨ src = dst ∨ w < 1) : add_edge g src dst w = g := by
  unfold add_edge
  rw [if_pos (by omega)]

theorem add_edge_update (g : DGraph) (src dst w : Int) (hw : Wf g)
    (h1 : 0 ≤ src) (h2 : src < (g.v_count : Int)) (h3 : 0 ≤ dst)
    (h4 : dst < (g.v_count : Int)) (h5 : src ≠ dst) (h6 : 1 ≤ w) :
    (add_edge g src dst w).v_count = g.v_count
    ∧ wt (add_edge g src dst w) src.toNat dst.toNat = w
    ∧ ∀ a b : Nat, ¬(a = src.toNat ∧ b = dst.toNat) →
        wt (add_edge g src dst w) a b = wt g a b := by
  unfold add_edge
  rw [if_neg (by omega)]
  refine ⟨rfl, ?_, ?_⟩
  · rw [wt_setEntry g hw _ _ _ (by omega) (by omega)]
    simp
  · intro a b hab
    rw [wt_setEntry g hw _ _ _ (by omega) (by omega)]
    rw [if_neg hab]

theorem remove_edge_update (g : DGraph) (src dst : Int) (hw : Wf g)
    (h1 : 0 ≤ src) (h2 : src < (g.v_count : Int)) (h3 : 0 ≤ dst)
    (h4 : dst < (g.v_count : Int)) :
    wt (remove_edge g src dst) src.toNat dst.toNat = 0 := by
  unfold remove_edge
  rw [if_neg (by omega)]
  rw [wt_setEntry g hw _ _ _ (by omega) (by omega)]
  simp

/-- Claim C6: `add_edge` silently no-ops (graph unchanged, no error) when
`src`/`dst` is out of range, `src = dst`, or `weight < 1`; when all
preconditions hold it overwrites `weights[src][dst]` with `weight` and
changes nothing else. -/
theorem claim_C6_add_edge_semantics (g : DGraph) (src dst w : Int) :
    ((src < 0 ∨ src ≥ (g.v_count : Int) ∨ dst < 0 ∨ dst ≥ (g.v_count : Int)
        ∨ src = dst ∨ w < 1) → add_edge g src dst w = g)
    ∧ (Wf g → 0 ≤ src → src < (g.v_count : Int) → 0 ≤ dst → dst < (g.v_count : Int) →
        src ≠ dst → 1 ≤ w →
        (add_edge g src dst w).v_count = g.v_count
        ∧ wt (add_edge g src dst w) src.toNat dst.toNat = w
        ∧ ∀ a b : Nat, ¬(a = src.toNat ∧ b = dst.toNat) →
            wt (add_edge g src dst w) a b = wt g a b) :=
  ⟨add_edge_noop g src dst w,
    fun hw h1 h2 h3 h4 h5 h6 => add_edge_update g src dst w hw h1 h2 h3 h4 h5 h6⟩

/-- Claim C5: the matrix invariants (square of side `v_count`, zero diagonal;
together with the spec's nonnegativity) hold after every public operation:
they hold for both constructor forms and are preserved by `add_vertex`,
`add_edge` and `remove_edge`.  All query/traversal operations are pure reads
in this embedding and cannot change the state. -/
theorem claim_C5_invariants :
    Wf emptyGraph
    ∧ (∀ es, Wf (initGraph es))
    ∧ (∀ g, Wf g → Wf (add_vertex g))
    ∧ (∀ g src dst w, Wf g → Wf (add_edge g src dst w))
    ∧ (∀ g src dst, Wf g → Wf (remove_edge g src dst)) :=
  ⟨wf_empty, wf_initGraph, wf_add_vertex,
    fun g src dst w h => wf_add_edge g src dst w h,
    fun g src dst h => wf_remove_edge g src dst h⟩

/-- Witness for C5 at a concrete state. -/
theorem claim_C5_invariants_witness : Wf (add_vertex emptyGraph) :=
  claim_C5_invariants.2.2.1 emptyGraph (by decide)

/-- Witness for C6 at a concrete state: a no-op self-loop insertion and a
successful insertion on a 2-vertex graph. -/
theorem claim_C6_add_edge_semantics_witness :
    add_edge (initGraph (some [(0, 1, 5)])) 1 1 7 = initGraph (some [(0, 1, 5)])
    ∧ wt (add_edge (initGraph (some [(0, 1, 5)])) 0 1 9) 0 1 = 9 := by
  constructor
  · exact (claim_C6_add_edge_semantics (initGraph (some [(0, 1, 5)])) 1 1 7).1
      (by decide)
  · exact ((claim_C6_add_edge_semantics (initGraph (some [(0, 1, 5)])) 0 1 9).2
      (by decide) (by decide) (by decide) (by decide) (by decide) (by decide)
      (by decide)).2.1

/-! ## Claims C7/C8: queries -/

theorem mem_get_edges (g : DGraph) (s d : Nat) (w : Int) :
    (s, d, w) ∈ get_edges g
      ↔ s < g.v_count ∧ d < g.v_count ∧ wt g s d = w ∧ 0 < w := by
  unfold get_edges
  rw [List.mem_flatMap]
  constructor
  · rintro ⟨i, hi, hmem⟩
    rw [List.mem_filterMap] at hmem
    obtain ⟨j, hj, heq⟩ := hmem
    by_cases hpos : wt g i j > 0
    · rw [if_pos hpos] at heq
      simp only [Option.some.injEq, Prod.mk.injEq] at heq
      obtain ⟨rfl, rfl, rfl⟩ := heq
      exact ⟨List.mem_range.mp hi, List.mem_range.mp hj, rfl, hpos⟩
    · rw [if_neg hpos] at heq
      exact absurd heq (by simp)
  · rintro ⟨hs, hd, hwt, hpos⟩
    refine ⟨s, List.mem_range.mpr hs, List.mem_filterMap.mpr ⟨d, List.mem_range.mpr hd, ?_⟩⟩
    rw [if_pos (by rw [hwt]; exact hpos), hwt]

/-- Row-major enumeration: `get_edges` is strictly increasing in the
lexicographic order on `(src, dst)`. -/
theorem get_edges_pairwise (g : DGraph) :
    (get_edges g).Pairwise
      (fun e e' => e.1 < e'.1 ∨ (e.1 = e'.1 ∧ e.2.1 < e'.2.1)) := by
  unfold get_edges
  have hblock : ∀ i : Nat, ∀ x ∈ (List.range g.v_count).filterMap
      (fun j => if wt g i j > 0 then some (i, j, wt g i j) else none), x.1 = i := by
    intro i x hx
    rw [List.mem_filterMap] at hx
    obtain ⟨j, _, heq⟩ := hx
    by_cases hpos : wt g i j > 0
    · rw [if_pos hpos] at heq
      cases heq
      rfl
    · rw [if_neg hpos] at heq
      exact absurd heq (by simp)
  rw [List.flatMap_def, List.pairwise_flatten]
  refine ⟨?_, ?_⟩
  · intro l hl
    rw [List.mem_map] at hl
    obtain ⟨i, _, rfl⟩ := hl
    refine List.Pairwise.filterMap _ ?_ (List.pairwise_lt_range _)
    intro a a' haa b hb b' hb'
    have hb1 : b.2.1 = a := by
      by_cases hpos : wt g i a > 0
      · rw [if_pos hpos] at hb
        cases hb
        rfl
      · rw [if_neg hpos] at hb
        exact absurd hb (by simp)
    have hb2 : b'.2.1 = a' := by
      by_cases hpos : wt g i a' > 0
      · rw [if_pos hpos] at hb'
        cases hb'
        rfl
      · rw [if_neg hpos] at hb'
        exact absurd hb' (by simp)
    have hbl : b.1 = i := by
      by_cases hpos : wt g i a > 0
      · rw [if_pos hpos] at hb
        cases hb
        rfl
      · rw [if_neg hpos] at hb
        exact absurd hb (by simp)
    have hbl' : b'.1 = i := by
      by_cases hpos : wt g i a' > 0
      · rw [if_pos hpos] at hb'
        cases hb'
        rfl
      · rw [if_neg hpos] at hb'
        exact absurd hb' (by simp)
    right
    rw [hb1, hb2, hbl, hbl']
    exact ⟨rfl, haa⟩
  · rw [List.pairwise_map]
    refine List.Pairwise.imp_of_mem ?_ (List.pairwise_lt_range _)
    intro i i' _ _ hii x hx y hy
    left
    rw [hblock i x hx, hblock i' y hy]
    exact hii

/-- Claim C7: `get_edges` returns exactly the positive-weight triples of the
matrix, in row-major order; consequently after a successful `add_edge` the
pair carries exactly the last-written weight, and after an in-range
`remove_edge` no triple for the pair remains. -/
theorem claim_C7_get_edges (g : DGraph) :
    (∀ s d w, (s, d, w) ∈ get_edges g
      ↔ s < g.v_count ∧ d < g.v_count ∧ wt g s d = w ∧ 0 < w)
    ∧ (get_edges g).Pairwise
        (fun e e' => e.1 < e'.1 ∨ (e.1 = e'.1 ∧ e.2.1 < e'.2.1))
    ∧ (∀ src dst w, Wf g → 0 ≤ src → src < (g.v_count : Int) → 0 ≤ dst →
        dst < (g.v_count : Int) → src ≠ dst → 1 ≤ w →
        ∀ w', (src.toNat, dst.toNat, w') ∈ get_edges (add_edge g src dst w) ↔ w' = w)
    ∧ (∀ src dst, Wf g → 0 ≤ src → src < (g.v_count : Int) → 0 ≤ dst →
        dst < (g.v_count : Int) →
        ∀ w', (src.toNat, dst.toNat, w') ∉ get_edges (remove_edge g src dst)) := by
  refine ⟨mem_get_edges g, get_edges_pairwise g, ?_, ?_⟩
  · intro src dst w hw h1 h2 h3 h4 h5 h6 w'
    obtain ⟨hvc, hset, _⟩ := add_edge_update g src dst w hw h1 h2 h3 h4 h5 h6
    rw [mem_get_edges]
    rw [hvc, hset]
    constructor
    · rintro ⟨_, _, rfl, _⟩
      rfl
    · rintro rfl
      exact ⟨by omega, by omega, rfl, by omega⟩
  · intro src dst hw h1 h2 h3 h4 w'
    have hset := remove_edge_update g src dst hw h1 h2 h3 h4
    rw [mem_get_edges]
    rintro ⟨_, _, rfl, hpos⟩
    rw [hset] at hpos
    exact absurd hpos (by omega)

/-- Witness for C7 at a concrete graph. -/
theorem claim_C7_get_edges_witness :
    ((0, 1, 9) ∈ get_edges (add_edge (initGraph (some [(0, 1, 5)])) 0 1 9) ↔ (9 : Int) = 9)
    ∧ ((0, 1, 5) ∉ get_edges (remove_edge (initGraph (some [(0, 1, 5)])) 0 1)) := by
  constructor
  · exact (claim_C7_get_edges (initGraph (some [(0, 1, 5)]))).2.2.1 0 1 9
      (by decide) (by decide) (by decide) (by decide) (by decide) (by decide)
      (by decide) 9
  · exact (claim_C7_get_edges (initGraph (some [(0, 1, 5)]))).2.2.2 0 1
      (by decide) (by decide) (by decide) (by decide) (by decide) 5

/-! ## Claim C4: cycle detection -/

/-- A directed edge of the graph in the claim sense: in-range endpoints and a
positive stored weight. -/
def EdgeP (g : DGraph) (u v : Nat) : Prop :=
  u < g.v_count ∧ v < g.v_count ∧ 0 < wt g u v

/-- The graph contains at least one directed cycle. -/
def HasCycleProp (g : DGraph) : Prop := ∃ u, Relation.TransGen (EdgeP g) u u

instance (g : DGraph) (u v : Nat) : Decidable (EdgeP g u v) := by
  unfold EdgeP
  infer_instance

theorem mem_succList (g : DGraph) (v j : Nat) :
    j ∈ succList g v ↔ j < g.v_count ∧ 0 < wt g v j := by
  unfold succList
  rw [List.mem_filter, List.mem_range, decide_eq_true_iff]

theorem edgeP_of_succList (g : DGraph) {v j : Nat} (hv : v < g.v_count)
    (h : j ∈ succList g v) : EdgeP g v j := by
  rw [mem_succList] at h
  exact ⟨hv, h.1, h.2⟩

theorem edgeP_irrefl (g : DGraph) (hw : Wf g) (x : Nat) : ¬ EdgeP g x x := by
  rintro ⟨hx, _, hpos⟩
  rw [hw.2.2.1 x hx] at hpos
  exact lt_irrefl 0 hpos

/-- The pairs `(visited, vertex)` that `has_cycle_helper` can be invoked
with: the initial call has `visited = [root]` and `vertex` a successor of
the root, and each recursive call appends `vertex` and moves to a popped
successor `v` that failed the back-edge test against `visited`. -/
inductive GoodCall (g : DGraph) : List Nat → Nat → Prop
  | base (i a : Nat) (hi : i < g.v_count) (ha : EdgeP g i a) : GoodCall g [i] a
  | step (visited : List Nat) (vertex v : Nat) (h : GoodCall g visited vertex)
      (hv : EdgeP g vertex v) (hnd : ∀ u ∈ visited, ¬ 0 < wt g v u) :
      GoodCall g (visited ++ [vertex]) v

theorem goodCall_chain {g : DGraph} {visited : List Nat} {vertex : Nat}
    (h : GoodCall g visited vertex) : List.Chain' (EdgeP g) (visited ++ [vertex]) := by
  induction h with
  | base i a _ ha => simp [ha]
  | step visited vtx v _ hv _ ih =>
    rw [List.chain'_append]
    refine ⟨ih, List.chain'_singleton v, ?_⟩
    intro x hx y hy
    have hlast : (visited ++ [vtx]).getLast? = some vtx := List.getLast?_concat _
    rw [hlast] at hx
    simp only [Option.mem_def, Option.some.injEq] at hx
    simp only [List.head?_cons, Option.mem_def, Option.some.injEq] at hy
    subst hx
    subst hy
    exact hv

theorem goodCall_bounds {g : DGraph} {visited : List Nat} {vertex : Nat}
    (h : GoodCall g visited vertex) : ∀ x ∈ visited ++ [vertex], x < g.v_count := by
  induction h with
  | base i a hi ha =>
    intro x hx
    rcases List.mem_pair.mp hx with rfl | rfl
    · exact hi
    · exact ha.2.1
  | step visited vtx v _ hv _ ih =>
    intro x hx
    rw [List.append_assoc] at hx
    rcases List.mem_append.mp hx with hx | hx
    · exact ih x (List.mem_append.mpr (Or.inl hx))
    · rcases List.mem_pair.mp hx with rfl | rfl
      · exact hv.1
      · exact hv.2.1

/-- The no-early-back-edge structure of realized calls: for every position
`q ≥ p + 2` in the chain `visited ++ [vertex]`, there is no edge from the
`q`-th element back to the `p`-th.  (When the `q`-th element was popped, the
`visited` list of that moment was exactly the prefix up to `q - 2`.) -/
theorem goodCall_noEarly {g : DGraph} {visited : List Nat} {vertex : Nat}
    (h : GoodCall g visited vertex) :
    ∀ p q, p + 2 ≤ q → q < (visited ++ [vertex]).length →
      ¬ 0 < wt g ((visited ++ [vertex]).getD q 0) ((visited ++ [vertex]).getD p 0) := by
  induction h with
  | base i a _ _ =>
    intro p q hpq hq
    simp only [List.length_append, List.length_singleton, List.length_cons,
      List.length_nil] at hq
    omega
  | step visited vtx v hgc hv hnd ih =>
    intro p q hpq hq
    have hlen : (visited ++ [vtx]).length = visited.length + 1 := by simp
    have hq2 : q < visited.length + 2 := by simpa using hq
    rcases Nat.lt_or_ge q (visited.length + 1) with hqlt | hqge
    · rw [getD_append_left _ _ q _ (by rw [hlen]; exact hqlt),
          getD_append_left _ _ p _ (by rw [hlen]; omega)]
      exact ih p q hpq (by rw [hlen]; exact hqlt)
    · have hqeq : q = visited.length + 1 := by omega
      subst hqeq
      rw [getD_append_right _ _ _ _ (by rw [hlen])]
      rw [hlen, Nat.sub_self]
      simp only [List.getD_cons_zero]
      have hp : p < visited.length := by omega
      rw [getD_append_left _ _ p _ (by rw [hlen]; omega),
          getD_append_left _ _ p _ hp]
      have hmem : visited.getD p 0 ∈ visited := by
        rw [List.getD_eq_getElem _ _ hp]
        exact List.getElem_mem hp
      exact hnd _ hmem

theorem chain'_getD {g : DGraph} {C : List Nat} (hch : List.Chain' (EdgeP g) C) :
    ∀ j, j + 1 < C.length → EdgeP g (C.getD j 0) (C.getD (j + 1) 0) := by
  intro j hj
  rw [List.chain'_iff_get] at hch
  have := hch j (by omega)
  rwa [List.getD_eq_getElem _ _ (by omega), List.getD_eq_getElem _ _ (by omega)]

/-- Any chain with the no-early-back-edge property repeats a vertex only at
distance exactly 2, so positions are determined by (vertex, position mod 3)
and the chain has at most `3 * v_count` entries. -/
theorem chain_noEarly_length {g : DGraph} (C : List Nat)
    (hch : List.Chain' (EdgeP g) C)
    (hne : ∀ p q, p + 2 ≤ q → q < C.length →
      ¬ 0 < wt g (C.getD q 0) (C.getD p 0))
    (hb : ∀ x ∈ C, x < g.v_count) : C.length ≤ 3 * g.v_count := by
  have key : ∀ p q : Nat, p < q → q < C.length →
      C.getD p 0 = C.getD q 0 → p % 3 = q % 3 → False := by
    intro p q hpq hq hvals hmod
    rcases Nat.lt_or_ge q (p + 3) with hsmall | hbig
    · omega
    · have hedge : EdgeP g (C.getD p 0) (C.getD (p + 1) 0) :=
        chain'_getD hch p (by omega)
      have hcontra := hne (p + 1) q (by omega) hq
      rw [← hvals] at hcontra
      exact hcontra hedge.2.2
  have hinj : Function.Injective (fun j : Fin C.length =>
      ((⟨C.getD j 0, hb _ (by rw [List.getD_eq_getElem _ _ j.2]; exact List.getElem_mem j.2)⟩
          : Fin g.v_count),
        (⟨j % 3, Nat.mod_lt _ (by omega)⟩ : Fin 3))) := by
    intro j1 j2 heq
    simp only [Prod.mk.injEq, Fin.mk.injEq] at heq
    rcases Nat.lt_trichotomy j1.val j2.val with hlt | heqv | hgt
    · exact absurd (key j1 j2 hlt j2.2 heq.1 heq.2) (by simp)
    · exact Fin.ext heqv
    · exact absurd (key j2 j1 hgt j1.2 heq.1.symm heq.2.symm) (by simp)
  have hcard := Fintype.card_le_of_injective _ hinj
  simpa [mul_comm] using hcard

theorem goodCall_visited_length {g : DGraph} {visited : List Nat} {vertex : Nat}
    (h : GoodCall g visited vertex) : visited.length + 1 ≤ 3 * g.v_count := by
  have := chain_noEarly_length (visited ++ [vertex]) (goodCall_chain h)
    (goodCall_noEarly h) (goodCall_bounds h)
  simpa using this

theorem detection_iff (g : DGraph) (v : Nat) (visited : List Nat) :
    (visited.any fun u => decide (wt g v u > 0)) = true
      ↔ ∃ u ∈ visited, 0 < wt g v u := by
  rw [List.any_eq_true]
  constructor
  · rintro ⟨u, hu, hdec⟩
    exact ⟨u, hu, by simpa using hdec⟩
  · rintro ⟨u, hu, hpos⟩
    exact ⟨u, hu, by simpa using hpos⟩

/-- With fuel at least `3 * v_count + 2 - len(visited)` the helper cannot run
out of fuel: each recursion level grows `visited` by one, and realized calls
have `visited` chains of length at most `3 * v_count`, because before the
chain could grow longer a back edge into `visited` must fire the detection. -/
theorem hchAux_ne_none {g : DGraph} :
    ∀ fuel vertex visited popo,
      GoodCall g visited vertex →
      (∀ x ∈ popo, x ∈ succList g vertex) →
      3 * g.v_count + 2 ≤ fuel + visited.length →
      hchAux g fuel vertex visited popo ≠ none := by
  intro fuel vertex visited popo
  induction fuel, vertex, visited, popo using hchAux.induct g with
  | case1 fuel vertex visited =>
    intro _ _ _
    simp [hchAux]
  | case2 fuel vertex visited v rest hdet =>
    intro _ _ _
    simp [hchAux, hdet]
  | case3 vertex visited v rest hdet =>
    intro hgc _ hfuel
    have := goodCall_visited_length hgc
    omega
  | case4 fuel vertex visited v rest hdet hfz hrec ih =>
    intro _ _ _
    simp [hchAux, hdet, hfz, hrec]
  | case5 fuel vertex visited v rest hdet hfz hrec ihdeep ihrest =>
    intro hgc hsub hfuel
    have hres : hchAux g fuel vertex visited (v :: rest)
        = hchAux g fuel vertex visited rest := by
      simp [hchAux, hdet, hfz, hrec]
    rw [hres]
    exact ihrest hgc (fun x hx => hsub x (List.mem_cons_of_mem v hx)) hfuel
  | case6 fuel vertex visited v rest hdet hfz hrec ihdeep =>
    intro hgc hsub hfuel
    exfalso
    have hvs : v ∈ succList g vertex := hsub v (List.mem_cons_self v rest)
    have hvert : vertex < g.v_count :=
      goodCall_bounds hgc vertex (by simp)
    have hedge : EdgeP g vertex v := edgeP_of_succList g hvert hvs
    have hnd : ∀ u ∈ visited, ¬ 0 < wt g v u := by
      intro u hu hpos
      exact hdet ((detection_iff g v visited).mpr ⟨u, hu, hpos⟩)
    have hgc' : GoodCall g (visited ++ [vertex]) v := GoodCall.step _ _ _ hgc hedge hnd
    refine ihdeep hgc' ?_ ?_ hrec
    · intro x hx
      exact List.mem_reverse.mp hx
    · simp only [List.length_append, List.length_singleton]
      omega

theorem chain_reflTransGen {g : DGraph} {C : List Nat}
    (hch : List.Chain' (EdgeP g) C) :
    ∀ p q, p ≤ q → q < C.length →
      Relation.ReflTransGen (EdgeP g) (C.getD p 0) (C.getD q 0) := by
  intro p q hpq hq
  induction q, hpq using Nat.le_induction with
  | base => exact Relation.ReflTransGen.refl
  | succ q hpq ih =>
    exact Relation.ReflTransGen.tail (ih (by omega)) (chain'_getD hch q hq)

/-- If the helper answers `True`, the graph really has a directed cycle: the
popped vertex `v` has an edge back to some `u` in `visited`, and the chain
walks from `u` forward to `vertex`, which has an edge to `v`. -/
theorem hchAux_sound {g : DGraph} :
    ∀ fuel vertex visited popo,
      GoodCall g visited vertex →
      (∀ x ∈ popo, x ∈ succList g vertex) →
      hchAux g fuel vertex visited popo = some true → HasCycleProp g := by
  intro fuel vertex visited popo
  induction fuel, vertex, visited, popo using hchAux.induct g with
  | case1 fuel vertex visited =>
    intro _ _ h
    simp [hchAux] at h
  | case2 fuel vertex visited v rest hdet =>
    intro hgc hsub _
    obtain ⟨u, hu, hpos⟩ := (detection_iff g v visited).mp hdet
    obtain ⟨p, hp, hpu⟩ := List.mem_iff_getElem.mp hu
    have hchain := goodCall_chain hgc
    have hC : (visited ++ [vertex]).getD p 0 = u := by
      rw [getD_append_left _ _ p _ hp, List.getD_eq_getElem _ _ hp, hpu]
    have hlastD : (visited ++ [vertex]).getD visited.length 0 = vertex := by
      rw [getD_append_right _ _ _ _ (le_refl _), Nat.sub_self]
      simp
    have hrtg : Relation.ReflTransGen (EdgeP g) u vertex := by
      have := chain_reflTransGen hchain p visited.length (by omega) (by simp)
      rwa [hC, hlastD] at this
    have hvert : vertex < g.v_count := goodCall_bounds hgc vertex (by simp)
    have hedge1 : EdgeP g vertex v :=
      edgeP_of_succList g hvert (hsub v (List.mem_cons_self v rest))
    have hu_lt : u < g.v_count :=
      goodCall_bounds hgc u (List.mem_append.mpr (Or.inl hu))
    have hedge2 : EdgeP g v u := ⟨hedge1.2.1, hu_lt, hpos⟩
    exact ⟨u, (Relation.TransGen.tail' hrtg hedge1).tail hedge2⟩
  | case3 vertex visited v rest hdet =>
    intro _ _ h
    simp [hchAux, hdet] at h
  | case4 fuel vertex visited v rest hdet hfz hrec ihdeep =>
    intro hgc hsub _
    have hvs : v ∈ succList g vertex := hsub v (List.mem_cons_self v rest)
    have hvert : vertex < g.v_count := goodCall_bounds hgc vertex (by simp)
    have hedge : EdgeP g vertex v := edgeP_of_succList g hvert hvs
    have hnd : ∀ u ∈ visited, ¬ 0 < wt g v u := by
      intro u hu hpos
      exact hdet ((detection_iff g v visited).mpr ⟨u, hu, hpos⟩)
    exact ihdeep (GoodCall.step _ _ _ hgc hedge hnd)
      (fun x hx => List.mem_reverse.mp hx) hrec
  | case5 fuel vertex visited v rest hdet hfz hrec ihdeep ihrest =>
    intro hgc hsub htrue
    have hres : hchAux g fuel vertex visited (v :: rest)
        = hchAux g fuel vertex visited rest := by
      simp [hchAux, hdet, hfz, hrec]
    rw [hres] at htrue
    exact ihrest hgc (fun x hx => hsub x (List.mem_cons_of_mem v hx)) htrue
  | case6 fuel vertex visited v rest hdet hfz hrec ihdeep =>
    intro _ _ h
    simp [hchAux, hdet, hfz, hrec] at h

theorem hcScan_sound {g : DGraph} (fuel i : Nat) (hi : i < g.v_count) :
    ∀ l, (∀ a ∈ l, a ∈ succList g i) →
      hcScan g fuel i l = some true → HasCycleProp g := by
  intro l
  induction l with
  | nil =>
    intro _ h
    simp [hcScan] at h
  | cons a rest ih =>
    intro hsub htrue
    simp only [hcScan] at htrue
    cases hres : hchAux g fuel a [i] (succList g a).reverse with
    | none =>
      rw [hres] at htrue
      simp at htrue
    | some b =>
      rw [hres] at htrue
      cases b with
      | true =>
        have hedge : EdgeP g i a :=
          edgeP_of_succList g hi (hsub a (List.mem_cons_self a rest))
        exact hchAux_sound fuel a [i] (succList g a).reverse
          (GoodCall.base i a hi hedge) (fun x hx => List.mem_reverse.mp hx) hres
      | false =>
        simp only at htrue
        exact ih (fun x hx => hsub x (List.mem_cons_of_mem a hx)) htrue

theorem hcOuter_sound {g : DGraph} (fuel : Nat) :
    ∀ l, (∀ i ∈ l, i < g.v_count) →
      hcOuter g fuel l = some true → HasCycleProp g := by
  intro l
  induction l with
  | nil =>
    intro _ h
    simp [hcOuter] at h
  | cons i rest ih =>
    intro hb htrue
    simp only [hcOuter] at htrue
    cases hres : hcScan g fuel i (succList g i) with
    | none =>
      rw [hres] at htrue
      simp at htrue
    | some b =>
      rw [hres] at htrue
      cases b with
      | true =>
        exact hcScan_sound fuel i (hb i (List.mem_cons_self i rest)) _
          (fun a ha => ha) hres
      | false =>
        simp only at htrue
        exact ih (fun x hx => hb x (List.mem_cons_of_mem i hx)) htrue

theorem hcScan_ne_none {g : DGraph} (fuel i : Nat) (hi : i < g.v_count)
    (hfuel : 3 * g.v_count + 1 ≤ fuel) :
    ∀ l, (∀ a ∈ l, a ∈ succList g i) → hcScan g fuel i l ≠ none := by
  intro l
  induction l with
  | nil => simp [hcScan]
  | cons a rest ih =>
    intro hsub
    simp only [hcScan]
    cases hres : hchAux g fuel a [i] (succList g a).reverse with
    | none =>
      exfalso
      have hedge : EdgeP g i a :=
        edgeP_of_succList g hi (hsub a (List.mem_cons_self a rest))
      exact hchAux_ne_none fuel a [i] (succList g a).reverse
        (GoodCall.base i a hi hedge) (fun x hx => List.mem_reverse.mp hx)
        (by simp; omega) hres
    | some b =>
      cases b with
      | true => simp
      | false =>
        simp only
        exact ih (fun x hx => hsub x (List.mem_cons_of_mem a hx))

theorem hcOuter_ne_none {g : DGraph} (fuel : Nat)
    (hfuel : 3 * g.v_count + 1 ≤ fuel) :
    ∀ l, (∀ i ∈ l, i < g.v_count) → hcOuter g fuel l ≠ none := by
  intro l
  induction l with
  | nil => simp [hcOuter]
  | cons i rest ih =>
    intro hb
    simp only [hcOuter]
    cases hres : hcScan g fuel i (succList g i) with
    | none =>
      exact absurd hres
        (hcScan_ne_none fuel i (hb i (List.mem_cons_self i rest)) hfuel _
          (fun a ha => ha))
    | some b =>
      cases b with
      | true => simp
      | false =>
        simp only
        exact ih (fun x hx => hb x (List.mem_cons_of_mem i hx))

/-- Walks of exactly `k` edges from `a` to `b`. -/
def NWalk (g : DGraph) : Nat → Nat → Nat → Prop
  | 0, a, b => a = b
  | k + 1, a, b => ∃ c, EdgeP g a c ∧ NWalk g k c b

theorem nwalk_zero {g : DGraph} {a b : Nat} : NWalk g 0 a b ↔ a = b := Iff.rfl

theorem nwalk_succ {g : DGraph} {k a b : Nat} :
    NWalk g (k + 1) a b ↔ ∃ c, EdgeP g a c ∧ NWalk g k c b := Iff.rfl

theorem nwalk_snoc {g : DGraph} :
    ∀ k a b c, NWalk g k a b → EdgeP g b c → NWalk g (k + 1) a c := by
  intro k
  induction k with
  | zero =>
    intro a b c hab hbc
    rw [nwalk_zero] at hab
    subst hab
    exact ⟨c, hbc, rfl⟩
  | succ k ih =>
    intro a b c hab hbc
    obtain ⟨d, had, hdb⟩ := nwalk_succ.mp hab
    exact ⟨d, had, ih d b c hdb hbc⟩

theorem transGen_iff_nwalk {g : DGraph} {a b : Nat} :
    Relation.TransGen (EdgeP g) a b ↔ ∃ k, NWalk g (k + 1) a b := by
  constructor
  · intro h
    induction h with
    | single hedge => exact ⟨0, _, hedge, rfl⟩
    | tail _ hedge ih =>
      obtain ⟨k, hw⟩ := ih
      exact ⟨k + 1, nwalk_snoc _ _ _ _ hw hedge⟩
  · rintro ⟨k, hw⟩
    induction k generalizing a with
    | zero =>
      obtain ⟨c, hedge, hc⟩ := nwalk_succ.mp hw
      rw [nwalk_zero] at hc
      subst hc
      exact Relation.TransGen.single hedge
    | succ k ih =>
      obtain ⟨c, hedge, hc⟩ := nwalk_succ.mp hw
      exact Relation.TransGen.head hedge (ih hc)

/-- Completeness driver for the helper: if some pending vertex `v` of the
scan has a walk to the current `visited` set (or back to `vertex`, which
joins `visited` one level down), then the helper (with whatever fuel)
answers `True` or runs out of fuel — never a definitive `False`.  The
measure `M` pre-pays 2 extra steps for a walk ending at `vertex`. -/
theorem hchAux_complete {g : DGraph} :
    ∀ M fuel vertex visited popo,
      (∀ x ∈ popo, x ∈ succList g vertex) →
      vertex < g.v_count →
      (∃ v ∈ popo, ∃ x k, NWalk g (k + 1) v x ∧
        ((x ∈ visited ∧ M = k) ∨ (x = vertex ∧ M = k + 2))) →
      hchAux g fuel vertex visited popo = some true
        ∨ hchAux g fuel vertex visited popo = none := by
  intro M
  induction M using Nat.strong_induction_on with
  | _ M ihM =>
    intro fuel vertex visited popo
    induction popo with
    | nil =>
      rintro _ _ ⟨v, hv, _⟩
      exact absurd hv (List.not_mem_nil v)
    | cons p rest ihrest =>
      rintro hsub hvert ⟨v, hv, x, k, hwalk, hcase⟩
      by_cases hdet : (visited.any fun u => decide (wt g p u > 0)) = true
      · left
        simp [hchAux, hdet]
      · by_cases hfz : fuel = 0
        · right
          simp [hchAux, hdet, hfz]
        · have hplt : p < g.v_count := by
            have := (mem_succList g vertex p).mp (hsub p (List.mem_cons_self p rest))
            exact this.1
          have hedge_vert_p : EdgeP g vertex p :=
            edgeP_of_succList g hvert (hsub p (List.mem_cons_self p rest))
          rcases List.mem_cons.mp hv with heq | hvrest
          · -- the popped vertex `p` is the witness
            subst heq
            rcases hcase with ⟨hxvis, hMk⟩ | ⟨hxvert, hMk⟩
            · cases k with
              | zero =>
                exfalso
                obtain ⟨c, hedge, hc⟩ := nwalk_succ.mp hwalk
                rw [nwalk_zero] at hc
                subst hc
                exact hdet ((detection_iff g v visited).mpr ⟨c, hxvis, hedge.2.2⟩)
              | succ k' =>
                obtain ⟨c, hedge_pc, hwalk'⟩ := nwalk_succ.mp hwalk
                have hrecres := ihM k' (by omega) (fuel - 1) v (visited ++ [vertex])
                  ((succList g v).reverse)
                  (fun y hy => List.mem_reverse.mp hy) hplt
                  ⟨c, List.mem_reverse.mpr
                      ((mem_succList g v c).mpr ⟨hedge_pc.2.1, hedge_pc.2.2⟩),
                    x, k', hwalk',
                    Or.inl ⟨List.mem_append.mpr (Or.inl hxvis), rfl⟩⟩
                rcases hrecres with htrue | hnone
                · left
                  simp [hchAux, hdet, hfz, htrue]
                · right
                  simp [hchAux, hdet, hfz, hnone]
            · rw [hxvert] at hwalk
              cases k with
              | zero =>
                obtain ⟨c, hedge_pc, hc⟩ := nwalk_succ.mp hwalk
                rw [nwalk_zero] at hc
                rw [hc] at hedge_pc
                -- edge p -> vertex and edge vertex -> p: recurse with the
                -- 2-step walk vertex -> p -> vertex ending in the new visited
                have hw2 : NWalk g 2 vertex vertex :=
                  ⟨v, hedge_vert_p, ⟨vertex, hedge_pc, rfl⟩⟩
                have hrecres := ihM 1 (by omega) (fuel - 1) v (visited ++ [vertex])
                  ((succList g v).reverse)
                  (fun y hy => List.mem_reverse.mp hy) hplt
                  ⟨vertex, List.mem_reverse.mpr
                      ((mem_succList g v vertex).mpr ⟨hvert, hedge_pc.2.2⟩),
                    vertex, 1, hw2,
                    Or.inl ⟨List.mem_append.mpr (Or.inr (List.mem_singleton.mpr rfl)), rfl⟩⟩
                rcases hrecres with htrue | hnone
                · left
                  simp [hchAux, hdet, hfz, htrue]
                · right
                  simp [hchAux, hdet, hfz, hnone]
              | succ k' =>
                obtain ⟨c, hedge_pc, hwalk'⟩ := nwalk_succ.mp hwalk
                have hrecres := ihM k' (by omega) (fuel - 1) v (visited ++ [vertex])
                  ((succList g v).reverse)
                  (fun y hy => List.mem_reverse.mp hy) hplt
                  ⟨c, List.mem_reverse.mpr
                      ((mem_succList g v c).mpr ⟨hedge_pc.2.1, hedge_pc.2.2⟩),
                    vertex, k', hwalk',
                    Or.inl ⟨List.mem_append.mpr (Or.inr (List.mem_singleton.mpr rfl)), rfl⟩⟩
                rcases hrecres with htrue | hnone
                · left
                  simp [hchAux, hdet, hfz, htrue]
                · right
                  simp [hchAux, hdet, hfz, hnone]
          · -- the witness is further down the scan
            cases hrec : hchAux g (fuel - 1) p (visited ++ [vertex])
                ((succList g p).reverse) with
            | none =>
              right
              simp [hchAux, hdet, hfz, hrec]
            | some b =>
              cases b with
              | true =>
                left
                simp [hchAux, hdet, hfz, hrec]
              | false =>
                have hloop := ihrest (fun y hy => hsub y (List.mem_cons_of_mem p hy))
                  hvert ⟨v, hvrest, x, k, hwalk, hcase⟩
                rcases hloop with htrue | hnone
                · left
                  simp [hchAux, hdet, hfz, hrec, htrue]
                · right
                  simp [hchAux, hdet, hfz, hrec, hnone]

theorem hcScan_complete {g : DGraph} (fuel i : Nat) :
    ∀ l : List Nat,
      (∃ s ∈ l, hchAux g fuel s [i] (succList g s).reverse = some true
        ∨ hchAux g fuel s [i] (succList g s).reverse = none) →
      hcScan g fuel i l = some true ∨ hcScan g fuel i l = none := by
  intro l
  induction l with
  | nil =>
    rintro ⟨s, hs, _⟩
    exact absurd hs (List.not_mem_nil s)
  | cons a rest ih =>
    rintro ⟨s, hs, hres⟩
    simp only [hcScan]
    cases hres' : hchAux g fuel a [i] (succList g a).reverse with
    | none =>
      right
      rfl
    | some b =>
      cases b with
      | true =>
        left
        rfl
      | false =>
        simp only
        rcases List.mem_cons.mp hs with heq | hsrest
        · subst heq
          rw [hres'] at hres
          rcases hres with h | h <;> exact absurd h (by simp)
        · exact ih ⟨s, hsrest, hres⟩

theorem hcOuter_complete {g : DGraph} (fuel : Nat) :
    ∀ l : List Nat,
      (∃ u ∈ l, hcScan g fuel u (succList g u) = some true
        ∨ hcScan g fuel u (succList g u) = none) →
      hcOuter g fuel l = some true ∨ hcOuter g fuel l = none := by
  intro l
  induction l with
  | nil =>
    rintro ⟨u, hu, _⟩
    exact absurd hu (List.not_mem_nil u)
  | cons a rest ih =>
    rintro ⟨u, hu, hres⟩
    simp only [hcOuter]
    cases hres' : hcScan g fuel a (succList g a) with
    | none =>
      right
      rfl
    | some b =>
      cases b with
      | true =>
        left
        rfl
      | false =>
        simp only
        rcases List.mem_cons.mp hu with heq | hurest
        · subst heq
          rw [hres'] at hres
          rcases hres with h | h <;> exact absurd h (by simp)
        · exact ih ⟨u, hurest, hres⟩

theorem has_cycle_ne_none (g : DGraph) : has_cycle g ≠ none := by
  unfold has_cycle hcFuel
  exact hcOuter_ne_none _ (by omega) _ (fun i hi => List.mem_range.mp hi)

/-- `has_cycle` answers `True` exactly when a directed cycle exists. -/
theorem has_cycle_eq_true_iff (g : DGraph) (hw : Wf g) :
    has_cycle g = some true ↔ HasCycleProp g := by
  constructor
  · intro htrue
    exact hcOuter_sound _ _ (fun i hi => List.mem_range.mp hi) htrue
  · rintro ⟨u, htg⟩
    obtain ⟨k, hw1⟩ := transGen_iff_nwalk.mp htg
    obtain ⟨s, hedge_us, hwalk_su⟩ := nwalk_succ.mp hw1
    have hu : u < g.v_count := hedge_us.1
    have hs : s < g.v_count := hedge_us.2.1
    have hsmem : s ∈ succList g u := (mem_succList g u s).mpr ⟨hs, hedge_us.2.2⟩
    have hcall : hchAux g (hcFuel g) s [u] (succList g s).reverse = some true
        ∨ hchAux g (hcFuel g) s [u] (succList g s).reverse = none := by
      cases k with
      | zero =>
        rw [nwalk_zero] at hwalk_su
        subst hwalk_su
        exact absurd hedge_us (edgeP_irrefl g hw s)
      | succ k' =>
        obtain ⟨w, hedge_sw, hwalk_wu⟩ := nwalk_succ.mp hwalk_su
        have hwmem : w ∈ (succList g s).reverse :=
          List.mem_reverse.mpr ((mem_succList g s w).mpr ⟨hedge_sw.2.1, hedge_sw.2.2⟩)
        cases k' with
        | zero =>
          rw [nwalk_zero] at hwalk_wu
          refine hchAux_complete 2 (hcFuel g) s [u] (succList g s).reverse
            (fun y hy => List.mem_reverse.mp hy) hs
            ⟨u, ?_, s, 0, ⟨s, hedge_us, rfl⟩, Or.inr ⟨rfl, rfl⟩⟩
          rw [← hwalk_wu]
          exact hwmem
        | succ k'' =>
          exact hchAux_complete k'' (hcFuel g) s [u] (succList g s).reverse
            (fun y hy => List.mem_reverse.mp hy) hs
            ⟨w, hwmem, u, k'', hwalk_wu, Or.inl ⟨List.mem_singleton.mpr rfl, rfl⟩⟩
    have hscan := hcScan_complete (hcFuel g) u (succList g u) ⟨s, hsmem, hcall⟩
    have houter := hcOuter_complete (g := g) (hcFuel g) (List.range g.v_count)
      ⟨u, List.mem_range.mpr hu, hscan⟩
    rcases houter with htrue | hnone
    · exact htrue
    · exact absurd hnone (has_cycle_ne_none g)

/-- A graph admitting a rank function that strictly increases along every
edge has no directed cycle. -/
theorem no_cycle_of_ranking (g : DGraph) (f : Nat → Nat)
    (h : ∀ u < g.v_count, ∀ v < g.v_count, 0 < wt g u v → f u < f v) :
    ¬ HasCycleProp g := by
  rintro ⟨u, htg⟩
  have mono : ∀ a b, Relation.TransGen (EdgeP g) a b → f a < f b := by
    intro a b hab
    induction hab with
    | single hedge => exact h _ hedge.1 _ hedge.2.1 hedge.2.2
    | tail _ hedge ih => exact lt_trans ih (h _ hedge.1 _ hedge.2.1 hedge.2.2)
  exact lt_irrefl (f u) (mono u u htg)

theorem has_cycle_false_of_ranking (g : DGraph) (hw : Wf g) (f : Nat → Nat)
    (h : ∀ u < g.v_count, ∀ v < g.v_count, 0 < wt g u v → f u < f v) :
    has_cycle g = some false := by
  cases hv : has_cycle g with
  | none => exact absurd hv (has_cycle_ne_none g)
  | some b =>
    cases b with
    | true =>
      exact absurd ((has_cycle_eq_true_iff g hw).mp hv)
        (no_cycle_of_ranking g f h)
    | false => rfl

/-- Claim C4: `has_cycle()` is true iff the graph has at least one directed
cycle (roots range over every vertex, so disconnected components count); in
particular it is true for the 3-cycle `{(0,1,1),(1,2,1),(2,0,1)}` and false
after removing any one of its edges. -/
theorem claim_C4_has_cycle :
    (∀ g, Wf g → (has_cycle g = some true ↔ HasCycleProp g))
    ∧ has_cycle (initGraph (some [(0, 1, 1), (1, 2, 1), (2, 0, 1)])) = some true
    ∧ has_cycle (remove_edge (initGraph (some [(0, 1, 1), (1, 2, 1), (2, 0, 1)])) 0 1)
        = some false
    ∧ has_cycle (remove_edge (initGraph (some [(0, 1, 1), (1, 2, 1), (2, 0, 1)])) 1 2)
        = some false
    ∧ has_cycle (remove_edge (initGraph (some [(0, 1, 1), (1, 2, 1), (2, 0, 1)])) 2 0)
        = some false := by
  refine ⟨has_cycle_eq_true_iff, ?_, ?_, ?_, ?_⟩
  · refine (has_cycle_eq_true_iff _ (by decide)).mpr ⟨0, ?_⟩
    exact Relation.TransGen.head (b := 1) (by decide)
      (Relation.TransGen.head (b := 2) (by decide) (Relation.TransGen.single (by decide)))
  · exact has_cycle_false_of_ranking _ (by decide) (fun v => [2, 0, 1].getD v 0)
      (by decide)
  · exact has_cycle_false_of_ranking _ (by decide) (fun v => [1, 2, 0].getD v 0)
      (by decide)
  · exact has_cycle_false_of_ranking _ (by decide) (fun v => [0, 1, 2].getD v 0)
      (by decide)

/-- Witness for C4 at a concrete cyclic graph. -/
theorem claim_C4_has_cycle_witness :
    has_cycle (initGraph (some [(0, 1, 1), (1, 2, 1), (2, 0, 1)])) = some true
      ↔ HasCycleProp (initGraph (some [(0, 1, 1), (1, 2, 1), (2, 0, 1)])) :=
  claim_C4_has_cycle.1 (initGraph (some [(0, 1, 1), (1, 2, 1), (2, 0, 1)])) (by decide)

/-- Claim C1 (refuted by the code, a bug): the `else:` holding the whole
search loop in `dfs`/`bfs` is attached to the `elif v_end is not None:`
normalization branch, so with a valid start and *any* supplied target —
in-range or out-of-range — both functions fall off the end and return
Python `None` instead of the visited sequence, contradicting their
`-> list` annotations and docstrings.  Only `v_end=None` reaches the search
and returns the visitation order. -/
theorem claim_C1_traversals_return_none :
    dfs (initGraph (some [(0, 1, 1)])) 0 (some 99) = none
    ∧ bfs (initGraph (some [(0, 1, 1)])) 0 (some 99) = none
    ∧ dfs (initGraph (some [(0, 1, 1)])) 0 none = some [0, 1]
    ∧ bfs (initGraph (some [(0, 1, 1)])) 0 none = some [0, 1] := by
  refine ⟨rfl, rfl, by decide, by decide⟩

/-- Claim C2 (refuted by the code, a bug): the early-termination scan is
unreachable.  With an in-range target the functions return `None` (the
search branch requires `v_end is None`), so no early-terminated visited
sequence `[0, 1]` is ever produced. -/
theorem claim_C2_early_termination_unreachable :
    dfs (initGraph (some [(0, 1, 1)])) 0 (some 1) = none
    ∧ bfs (initGraph (some [(0, 1, 1)])) 0 (some 1) = none := ⟨rfl, rfl⟩

/-- Claim C8: for sequences of in-range vertex indices, `is_valid_path` is
true iff every consecutive pair is joined by an edge of positive weight in
that direction; sequences of length 0 or 1 are always valid. -/
theorem claim_C8_is_valid_path (g : DGraph) (hw : Wf g) (path : List Nat)
    (_hin : ∀ x ∈ path, x < g.v_count) :
    (is_valid_path g path = true ↔
      ∀ i, i + 1 < path.length → 0 < wt g (path.getD i 0) (path.getD (i + 1) 0))
    ∧ (path.length ≤ 1 → is_valid_path g path = true) := by
  constructor
  · unfold is_valid_path
    by_cases h : path.length > 1
    · rw [if_pos h, List.all_eq_true]
      constructor
      · intro hall i hi
        have hmem := hall i (List.mem_range.mpr (by omega))
        rw [decide_eq_true_iff] at hmem
        have hnn := wt_nonneg g hw (path.getD i 0) (path.getD (i + 1) 0)
        omega
      · intro hpos i hir
        rw [List.mem_range] at hir
        have := hpos i (by omega)
        rw [decide_eq_true_iff]
        omega
    · rw [if_neg h]
      constructor
      · intro _ i hi
        omega
      · intro _
        rfl
  · intro hlen
    unfold is_valid_path
    rw [if_neg (by omega)]

/-- Witness for C8 on a concrete graph and path. -/
theorem claim_C8_is_valid_path_witness :
    (is_valid_path (initGraph (some [(0, 1, 5)])) [0, 1] = true ↔
      ∀ i, i + 1 < ([0, 1] : List Nat).length →
        0 < wt (initGraph (some [(0, 1, 5)])) (([0, 1] : List Nat).getD i 0)
          (([0, 1] : List Nat).getD (i + 1) 0)) :=
  (claim_C8_is_valid_path (initGraph (some [(0, 1, 5)])) (by decide) [0, 1]
    (by decide)).1

/-! ## Claim C3: dijkstra -/

/-- `W` is a walk (vertex sequence along positive edges) from `src` to `i`. -/
def IsWalkFrom (g : DGraph) (src i : Nat) (W : List Nat) : Prop :=
  W.head? = some src ∧ W.getLast? = some i ∧ List.Chain' (EdgeP g) W

/-- Total weight of a walk given as a vertex sequence. -/
def wsum (g : DGraph) : List Nat → Int
  | [] => 0
  | [_] => 0
  | a :: b :: rest => wt g a b + wsum g (b :: rest)

theorem wsum_snoc (g : DGraph) :
    ∀ (W : List Nat) (u i : Nat), W.getLast? = some u →
      wsum g (W ++ [i]) = wsum g W + wt g u i := by
  intro W
  induction W with
  | nil =>
    intro u i h
    simp at h
  | cons a rest ih =>
    intro u i h
    cases rest with
    | nil =>
      simp only [List.getLast?_singleton, Option.some.injEq] at h
      subst h
      simp [wsum]
    | cons b rest' =>
      have h' : (b :: rest').getLast? = some u := by
        rwa [List.getLast?_cons_cons] at h
      have := ih u i h'
      simp only [List.cons_append] at this ⊢
      rw [wsum, this, wsum]
      ring

theorem wsum_nonneg (g : DGraph) :
    ∀ W : List Nat, List.Chain' (EdgeP g) W → 0 ≤ wsum g W := by
  intro W
  induction W with
  | nil => intro _; simp [wsum]
  | cons a rest ih =>
    intro hch
    cases rest with
    | nil => simp [wsum]
    | cons b rest' =>
      rw [List.chain'_cons] at hch
      have h1 : 0 < wt g a b := hch.1.2.2
      have h2 := ih hch.2
      rw [wsum]
      omega

/-- Prefix-bounded trails recorded against a distance array: `PT dist src i c
E` says the edges `E` form a trail (no repeated edge) from `src` to `i` of
total weight `c`, and at every vertex along it — including `i` itself — the
current `dist` entry is defined and at most the weight of the corresponding
prefix.  Every finite entry produced by the relaxation loop carries such a
trail. -/
inductive PT (g : DGraph) (dist : List (Option Int)) (src : Nat) :
    Nat → Int → List (Nat × Nat) → Prop where
  | nil (d0 : Int) (h : dist.getD src none = some d0) (h0 : d0 ≤ 0) :
      PT g dist src src 0 []
  | snoc (u i : Nat) (c : Int) (E : List (Nat × Nat)) (h : PT g dist src u c E)
      (hedge : EdgeP g u i) (hnotin : (u, i) ∉ E)
      (di : Int) (hdi : dist.getD i none = some di) (hle : di ≤ c + wt g u i) :
      PT g dist src i (c + wt g u i) (E ++ [(u, i)])

theorem PT_nodup {g : DGraph} {dist : List (Option Int)} {src i : Nat} {c : Int}
    {E : List (Nat × Nat)} (h : PT g dist src i c E) : E.Nodup := by
  induction h with
  | nil => exact List.nodup_nil
  | snoc u i c E _ _ hnotin _ _ _ ih =>
    rw [List.nodup_append]
    exact ⟨ih, List.nodup_singleton _, by simpa using hnotin⟩

theorem PT_edges_valid {g : DGraph} {dist : List (Option Int)} {src i : Nat} {c : Int}
    {E : List (Nat × Nat)} (h : PT g dist src i c E) :
    ∀ p ∈ E, EdgeP g p.1 p.2 := by
  induction h with
  | nil => intro p hp; exact absurd hp (List.not_mem_nil p)
  | snoc u i c E _ hedge _ _ _ _ ih =>
    intro p hp
    rcases List.mem_append.mp hp with hp | hp
    · exact ih p hp
    · rw [List.mem_singleton.mp hp]
      exact hedge

theorem PT_weight_eq {g : DGraph} {dist : List (Option Int)} {src i : Nat} {c : Int}
    {E : List (Nat × Nat)} (h : PT g dist src i c E) :
    c = (E.map (fun p => wt g p.1 p.2)).sum := by
  induction h with
  | nil => simp
  | snoc u i c E _ _ _ _ _ _ ih => simp [ih]

theorem PT_head_bound {g : DGraph} {dist : List (Option Int)} {src i : Nat} {c : Int}
    {E : List (Nat × Nat)} (h : PT g dist src i c E) :
    ∃ di, dist.getD i none = some di ∧ di ≤ c := by
  cases h with
  | nil d0 h h0 => exact ⟨d0, h, h0⟩
  | snoc u i c E _ _ _ di hdi hle => exact ⟨di, hdi, hle⟩

/-- Every edge target along a prefix-bounded trail has a finite `dist` value
at most the total weight. -/
theorem PT_edge_bound {g : DGraph} {dist : List (Option Int)} {src i : Nat} {c : Int}
    {E : List (Nat × Nat)} (h : PT g dist src i c E) :
    ∀ a b, (a, b) ∈ E → ∃ db, dist.getD b none = some db ∧ db ≤ c := by
  induction h with
  | nil => intro a b hab; exact absurd hab (List.not_mem_nil _)
  | snoc u i c E hpt hedge _ di hdi hle ih =>
    intro a b hab
    rcases List.mem_append.mp hab with hab | hab
    · obtain ⟨db, hdb, hdbc⟩ := ih a b hab
      exact ⟨db, hdb, le_trans hdbc (by have := hedge.2.2; omega)⟩
    · obtain ⟨rfl, rfl⟩ : a = u ∧ b = i := by
        have := List.mem_singleton.mp hab
        exact ⟨congrArg Prod.fst this, congrArg Prod.snd this⟩
      exact ⟨di, hdi, hle⟩

/-- Pointwise improvement of distance arrays: every finite entry stays
finite and does not increase. -/
def DLe (dist' dist : List (Option Int)) : Prop :=
  ∀ j d, dist.getD j none = some d → ∃ d', dist'.getD j none = some d' ∧ d' ≤ d

theorem DLe_refl (dist : List (Option Int)) : DLe dist dist :=
  fun _ d h => ⟨d, h, le_refl d⟩

theorem DLe_trans {a b c : List (Option Int)} (h1 : DLe b a) (h2 : DLe c b) :
    DLe c a := by
  intro j d h
  obtain ⟨d', hd', hle'⟩ := h1 j d h
  obtain ⟨d'', hd'', hle''⟩ := h2 j d' hd'
  exact ⟨d'', hd'', le_trans hle'' hle'⟩

theorem PT_mono {g : DGraph} {dist dist' : List (Option Int)} {src i : Nat}
    {c : Int} {E : List (Nat × Nat)} (hle : DLe dist' dist)
    (h : PT g dist src i c E) : PT g dist' src i c E := by
  induction h with
  | nil d0 h h0 =>
    obtain ⟨d0', hd0', hle0⟩ := hle _ _ h
    exact PT.nil d0' hd0' (le_trans hle0 h0)
  | snoc u i c E _ hedge hnotin di hdi hle2 ih =>
    obtain ⟨di', hdi', hlei⟩ := hle _ _ hdi
    exact PT.snoc u i c E ih hedge hnotin di' hdi' (le_trans hlei hle2)

theorem PT_walk {g : DGraph} {dist : List (Option Int)} {src i : Nat} {c : Int}
    {E : List (Nat × Nat)} (h : PT g dist src i c E) :
    ∃ W, IsWalkFrom g src i W ∧ wsum g W = c := by
  induction h with
  | nil => exact ⟨[src], ⟨rfl, rfl, List.chain'_singleton src⟩, rfl⟩
  | snoc u i c E _ hedge _ _ _ _ ih =>
    obtain ⟨W, ⟨hhead, hlast, hchain⟩, hsum⟩ := ih
    refine ⟨W ++ [i], ⟨?_, ?_, ?_⟩, ?_⟩
    · cases W with
      | nil => simp at hhead
      | cons a rest => simpa using hhead
    · exact List.getLast?_concat _
    · rw [List.chain'_append]
      refine ⟨hchain, List.chain'_singleton i, ?_⟩
      intro x hx y hy
      rw [hlast] at hx
      simp only [Option.mem_def, Option.some.injEq] at hx
      simp only [List.head?_cons, Option.mem_def, Option.some.injEq] at hy
      subst hx
      subst hy
      exact hedge
    · rw [wsum_snoc g W u i hlast, hsum]

/-- The finite set of positive matrix entries. -/
def validPairs (g : DGraph) : Finset (Nat × Nat) :=
  (Finset.range g.v_count ×ˢ Finset.range g.v_count).filter
    (fun p => 0 < wt g p.1 p.2)

theorem PT_weight_le_totalW {g : DGraph} {dist : List (Option Int)} {src i : Nat}
    {c : Int} {E : List (Nat × Nat)} (h : PT g dist src i c E) : c ≤ totalW g := by
  have hnodup := PT_nodup h
  have hvalid := PT_edges_valid h
  have hsub : E.toFinset ⊆ validPairs g := by
    intro p hp
    rw [List.mem_toFinset] at hp
    have := hvalid p hp
    unfold validPairs
    rw [Finset.mem_filter, Finset.mem_product, Finset.mem_range, Finset.mem_range]
    exact ⟨⟨this.1, this.2.1⟩, this.2.2⟩
  have hsum : (E.map (fun p => wt g p.1 p.2)).sum
      = ∑ p ∈ E.toFinset, wt g p.1 p.2 := by
    rw [List.sum_toFinset _ hnodup]
  have hle : ∑ p ∈ E.toFinset, wt g p.1 p.2 ≤ ∑ p ∈ validPairs g, wt g p.1 p.2 := by
    refine Finset.sum_le_sum_of_subset_of_nonneg hsub ?_
    intro p hp _
    unfold validPairs at hp
    rw [Finset.mem_filter] at hp
    exact le_of_lt hp.2
  rw [PT_weight_eq h, hsum]
  unfold totalW
  exact hle

/-- The relaxation condition `distances[u] + w < distances[i]` (with the
infinity conventions) as a proposition: the edge `(u, i)` is still improvable. -/
def tense (g : DGraph) (dist : List (Option Int)) (u i : Nat) : Prop :=
  olt (oadd (dist.getD u none) (wt g u i)) (dist.getD i none) = true

theorem tense_dest {g : DGraph} {dist : List (Option Int)} {u i : Nat}
    (h : tense g dist u i) :
    ∃ du, dist.getD u none = some du ∧
      (dist.getD i none = none
        ∨ ∃ di, dist.getD i none = some di ∧ du + wt g u i < di) := by
  unfold tense at h
  cases hu : dist.getD u none with
  | none =>
    rw [hu] at h
    simp [oadd, olt] at h
  | some du =>
    rw [hu] at h
    cases hi : dist.getD i none with
    | none => exact ⟨du, rfl, Or.inl rfl⟩
    | some di =>
      rw [hi] at h
      simp only [oadd, olt, decide_eq_true_iff] at h
      exact ⟨du, rfl, Or.inr ⟨di, rfl, h⟩⟩

theorem not_tense_dest {g : DGraph} {dist : List (Option Int)} {u i : Nat}
    (h : ¬ tense g dist u i) {du : Int} (hu : dist.getD u none = some du) :
    ∃ di, dist.getD i none = some di ∧ di ≤ du + wt g u i := by
  unfold tense at h
  rw [hu] at h
  cases hi : dist.getD i none with
  | none =>
    rw [hi] at h
    simp [oadd, olt] at h
  | some di =>
    rw [hi] at h
    simp only [oadd, olt, decide_eq_true_iff] at h
    exact ⟨di, rfl, by omega⟩

/-- Termination potential per entry: `none` counts as the strict upper bound
`totalW + 1`, a finite entry as its (non-negative) value. -/
def fB (g : DGraph) : Option Int → Nat
  | none => (totalW g).toNat + 1
  | some d => d.toNat

/-- Termination potential of a distance array. -/
def SumF (g : DGraph) (dist : List (Option Int)) : Nat := (dist.map (fB g)).sum

theorem sum_map_set {α : Type} (f : α → Nat) (dflt : α) :
    ∀ (l : List α) (i : Nat), i < l.length → ∀ a : α,
      ((l.set i a).map f).sum + f (l.getD i dflt) = (l.map f).sum + f a := by
  intro l
  induction l with
  | nil =>
    intro i hi
    simp at hi
  | cons x xs ih =>
    intro i hi a
    cases i with
    | zero =>
      simp only [List.set_cons_zero, List.map_cons, List.sum_cons, List.getD_cons_zero]
      omega
    | succ i =>
      simp only [List.set_cons_succ, List.map_cons, List.sum_cons, List.getD_cons_succ]
      have := ih i (by simpa using hi) a
      omega

/-- Invariant carried while the edges out of the popped vertex `v` are being
relaxed: as in `Inv` below except that a still-improvable edge may also
start at `v` itself. -/
def MInv (g : DGraph) (src v : Nat) (dq : List (Option Int) × List Nat) : Prop :=
  dq.1.length = g.v_count
  ∧ dq.2.Nodup
  ∧ (∀ x ∈ dq.2, x < g.v_count)
  ∧ dq.1.getD src none = some 0
  ∧ (∀ i d, dq.1.getD i none = some d → 0 ≤ d)
  ∧ (∀ i d, dq.1.getD i none = some d → ∃ E, PT g dq.1 src i d E)
  ∧ (∀ u i, 0 < wt g u i → tense g dq.1 u i → u ∈ dq.2 ∨ u = v)

/-- The loop invariant of `dijkstra`'s `while queue:` loop. -/
def Inv (g : DGraph) (src : Nat) (dist : List (Option Int)) (queue : List Nat) : Prop :=
  dist.length = g.v_count
  ∧ queue.Nodup
  ∧ (∀ x ∈ queue, x < g.v_count)
  ∧ dist.getD src none = some 0
  ∧ (∀ i d, dist.getD i none = some d → 0 ≤ d)
  ∧ (∀ i d, dist.getD i none = some d → ∃ E, PT g dist src i d E)
  ∧ (∀ u i, 0 < wt g u i → tense g dist u i → u ∈ queue)

/-- Effect of a single relaxation step `i` on the mid-loop invariant: the
invariant is preserved, distances only improve, the popped vertex's own
distance and all entries other than `i` are untouched, edge `(v, i)` is not
improvable afterwards, and the step is either a no-op or strictly decreases
the potential while growing the queue by at most one. -/
theorem relaxStep_preserve (g : DGraph) (hw : Wf g) (src v : Nat)
    (dq : List (Option Int) × List Nat) (i : Nat) (hi : i < g.v_count)
    (hInv : MInv g src v dq) :
    MInv g src v (relaxStep g v dq i)
    ∧ DLe (relaxStep g v dq i).1 dq.1
    ∧ (relaxStep g v dq i).1.getD v none = dq.1.getD v none
    ∧ (∀ j, j ≠ i → (relaxStep g v dq i).1.getD j none = dq.1.getD j none)
    ∧ (0 < wt g v i → ¬ tense g (relaxStep g v dq i).1 v i)
    ∧ (relaxStep g v dq i = dq
        ∨ (SumF g (relaxStep g v dq i).1 < SumF g dq.1
            ∧ (relaxStep g v dq i).2.length ≤ dq.2.length + 1)) := by
  obtain ⟨hlen, hnodup, hqb, hsrc0, hnonneg, hPT, htense⟩ := hInv
  by_cases hpos : wt g v i > 0
  case neg =>
    have heq : relaxStep g v dq i = dq := by
      unfold relaxStep
      rw [if_neg hpos]
    rw [heq]
    refine ⟨⟨hlen, hnodup, hqb, hsrc0, hnonneg, hPT, htense⟩, DLe_refl _, rfl,
      fun j _ => rfl, fun h => absurd h hpos, Or.inl rfl⟩
  case pos =>
    by_cases holt : olt (oadd (dq.1.getD v none) (wt g v i)) (dq.1.getD i none) = true
    case neg =>
      have heq : relaxStep g v dq i = dq := by
        unfold relaxStep
        rw [if_pos hpos, if_neg holt]
      rw [heq]
      exact ⟨⟨hlen, hnodup, hqb, hsrc0, hnonneg, hPT, htense⟩, DLe_refl _, rfl,
        fun j _ => rfl, fun _ => holt, Or.inl rfl⟩
    case pos =>
      obtain ⟨dv, hdv, hrest⟩ := tense_dest (show tense g dq.1 v i from holt)
      have hvn : v < g.v_count := by
        by_contra hcon
        rw [wt_out g hw v i (Or.inl (le_of_not_lt hcon))] at hpos
        exact absurd hpos (by omega)
      have hvi : v ≠ i := by
        rintro rfl
        rw [hw.2.2.1 v hvn] at hpos
        exact absurd hpos (by omega)
      have hdvn : 0 ≤ dv := hnonneg v dv hdv
      have hilen : i < dq.1.length := by rw [hlen]; exact hi
      have heq : relaxStep g v dq i
          = (dq.1.set i (some (dv + wt g v i)),
              if i ∈ dq.2 then dq.2 else dq.2 ++ [i]) := by
        unfold relaxStep
        rw [if_pos hpos, if_pos holt, hdv]
        rfl
      have hget : ∀ j, (dq.1.set i (some (dv + wt g v i))).getD j none
          = if i = j then some (dv + wt g v i) else dq.1.getD j none := by
        intro j
        rw [getD_set]
        by_cases hij : i = j
        · rw [if_pos ⟨hij, hilen⟩, if_pos hij]
        · rw [if_neg (fun hc => hij hc.1), if_neg hij]
      have hDLe : DLe (dq.1.set i (some (dv + wt g v i))) dq.1 := by
        intro j d hj
        rw [hget]
        by_cases hij : i = j
        · subst hij
          refine ⟨dv + wt g v i, by rw [if_pos rfl], ?_⟩
          rcases hrest with hnone | ⟨di, hdi, hlt⟩
          · rw [hnone] at hj
            cases hj
          · rw [hdi] at hj
            injection hj with hj
            omega
        · exact ⟨d, by rw [if_neg hij]; exact hj, le_refl d⟩
      have hmemq' : ∀ x ∈ dq.2, x ∈ (if i ∈ dq.2 then dq.2 else dq.2 ++ [i]) := by
        intro x hx
        split
        · exact hx
        · exact List.mem_append.mpr (Or.inl hx)
      have himemq' : i ∈ (if i ∈ dq.2 then dq.2 else dq.2 ++ [i]) := by
        split
        · assumption
        · exact List.mem_append.mpr (Or.inr (List.mem_singleton.mpr rfl))
      -- the new prefix-bounded trail for entry i
      obtain ⟨E, hE⟩ := hPT v dv hdv
      have hE' : PT g (dq.1.set i (some (dv + wt g v i))) src v dv E := PT_mono hDLe hE
      have hnotin : (v, i) ∉ E := by
        intro hmem
        obtain ⟨db, hdb, hdbc⟩ := PT_edge_bound hE v i hmem
        rcases hrest with hnone | ⟨di, hdi, hlt⟩
        · rw [hnone] at hdb
          cases hdb
        · rw [hdi] at hdb
          injection hdb with hdb
          have := hpos
          omega
      have hPTi : PT g (dq.1.set i (some (dv + wt g v i))) src i
          (dv + wt g v i) (E ++ [(v, i)]) := by
        refine PT.snoc v i dv E hE' ⟨hvn, hi, hpos⟩ hnotin (dv + wt g v i) ?_ (le_refl _)
        rw [hget, if_pos rfl]
      rw [heq]
      refine ⟨⟨?_, ?_, ?_, ?_, ?_, ?_, ?_⟩, hDLe, ?_, ?_, ?_, ?_⟩
      · simpa using hlen
      · simp only
        split
        · exact hnodup
        · rw [List.nodup_append]
          rename_i hnotmem
          exact ⟨hnodup, List.nodup_singleton i, by simpa using hnotmem⟩
      · intro x hx
        simp only at hx
        by_cases hmem : i ∈ dq.2
        · rw [if_pos hmem] at hx
          exact hqb x hx
        · rw [if_neg hmem] at hx
          rcases List.mem_append.mp hx with hx | hx
          · exact hqb x hx
          · rw [List.mem_singleton.mp hx]
            exact hi
      · simp only
        rw [hget]
        by_cases hisrc : i = src
        · subst hisrc
          rw [hsrc0] at hrest
          rcases hrest with hnone | ⟨di, hdi, hlt⟩
          · cases hnone
          · injection hdi with hdi
            subst hdi
            have := hpos
            omega
        · rw [if_neg hisrc]
          exact hsrc0
      · intro j d hj
        simp only at hj
        rw [hget] at hj
        by_cases hij : i = j
        · rw [if_pos hij] at hj
          injection hj with hj
          omega
        · rw [if_neg hij] at hj
          exact hnonneg j d hj
      · intro j d hj
        simp only at hj
        rw [hget] at hj
        by_cases hij : i = j
        · rw [if_pos hij] at hj
          injection hj with hj
          subst hij
          exact ⟨E ++ [(v, i)], hj ▸ hPTi⟩
        · rw [if_neg hij] at hj
          obtain ⟨E', hE2⟩ := hPT j d hj
          exact ⟨E', PT_mono hDLe hE2⟩
      · intro u j hposuj htense'
        simp only at htense' ⊢
        by_cases hui : u = i
        · subst hui
          exact Or.inl himemq'
        · have hu_same : (dq.1.set i (some (dv + wt g v i))).getD u none
              = dq.1.getD u none := by
            rw [hget, if_neg (fun hc => hui hc.symm)]
          by_cases hji : j = i
          · subst hji
            obtain ⟨du, hdu, hcase⟩ := tense_dest htense'
            rw [hu_same] at hdu
            have hold : tense g dq.1 u j := by
              unfold tense
              rw [hdu]
              rcases hcase with hnone | ⟨dj, hdj, hlt⟩
              · rw [hget, if_pos rfl] at hnone
                cases hnone
              · rw [hget, if_pos rfl] at hdj
                injection hdj with hdj
                rcases hrest with hnone2 | ⟨di2, hdi2, hlt2⟩
                · rw [hnone2]
                  simp [oadd, olt]
                · rw [hdi2]
                  simp only [oadd, olt, decide_eq_true_iff]
                  omega
            rcases htense u j hposuj hold with h | h
            · exact Or.inl (hmemq' u h)
            · exact Or.inr h
          · have hj_same : (dq.1.set i (some (dv + wt g v i))).getD j none
                = dq.1.getD j none := by
              rw [hget, if_neg (fun hc => hji hc.symm)]
            have hold : tense g dq.1 u j := by
              unfold tense at htense' ⊢
              rwa [hu_same, hj_same] at htense'
            rcases htense u j hposuj hold with h | h
            · exact Or.inl (hmemq' u h)
            · exact Or.inr h
      · simp only
        rw [hget, if_neg (fun hc => hvi hc.symm)]
      · intro j hjne
        simp only
        rw [hget, if_neg (fun hc => hjne hc.symm)]
      · intro _
        unfold tense
        simp only
        rw [hget, if_neg (fun hc => hvi hc.symm), hdv,
          hget, if_pos rfl]
        simp [oadd, olt]
      · right
        constructor
        · have hsum := sum_map_set (fB g) none dq.1 i hilen (some (dv + wt g v i))
          have hfb : fB g (some (dv + wt g v i)) < fB g (dq.1.getD i none) := by
            rcases hrest with hnone | ⟨di, hdi, hlt⟩
            · rw [hnone]
              have hb := PT_weight_le_totalW hPTi
              simp only [fB]
              omega
            · rw [hdi]
              simp only [fB]
              omega
          unfold SumF
          simp only at hsum ⊢
          omega
        · simp only
          split
          · omega
          · simp

/-- Composing `relaxStep` over a list of targets: once relaxed, an edge
`(v, j)` stays non-improvable because neither `dist[v]` nor `dist[j]` is
touched again during the scan. -/
theorem relaxAll_go (g : DGraph) (hw : Wf g) (src v : Nat) :
    ∀ (l : List Nat) (dq : List (Option Int) × List Nat),
      MInv g src v dq → (∀ i ∈ l, i < g.v_count) →
      (∀ j, j ∉ l → 0 < wt g v j → ¬ tense g dq.1 v j) →
      MInv g src v (l.foldl (relaxStep g v) dq)
      ∧ DLe (l.foldl (relaxStep g v) dq).1 dq.1
      ∧ (∀ j, 0 < wt g v j → ¬ tense g (l.foldl (relaxStep g v) dq).1 v j)
      ∧ (l.foldl (relaxStep g v) dq = dq
          ∨ (SumF g (l.foldl (relaxStep g v) dq).1 < SumF g dq.1
              ∧ (l.foldl (relaxStep g v) dq).2.length ≤ dq.2.length + l.length)) := by
  intro l
  induction l with
  | nil =>
    intro dq hInv _ hnt
    simp only [List.foldl_nil]
    exact ⟨hInv, DLe_refl _, fun j => hnt j (List.not_mem_nil j), Or.inl trivial⟩
  | cons a l ih =>
    intro dq hInv hb hnt
    simp only [List.foldl_cons]
    obtain ⟨hInv', hDLe', hvsame', hothers', hnta', hdich'⟩ :=
      relaxStep_preserve g hw src v dq a (hb a (List.mem_cons_self a l)) hInv
    have hnt' : ∀ j, j ∉ l → 0 < wt g v j → ¬ tense g (relaxStep g v dq a).1 v j := by
      intro j hjl hjpos
      by_cases hja : j = a
      · subst hja
        exact hnta' hjpos
      · have hold : ¬ tense g dq.1 v j := by
          refine hnt j ?_ hjpos
          intro hmem
          rcases List.mem_cons.mp hmem with h | h
          · exact hja h
          · exact hjl h
        unfold tense at hold ⊢
        rw [hothers' j hja, hvsame']
        exact hold
    obtain ⟨hInv2, hDLe2, hnt2, hdich2⟩ :=
      ih (relaxStep g v dq a) hInv' (fun i hi => hb i (List.mem_cons_of_mem a hi)) hnt'
    refine ⟨hInv2, DLe_trans hDLe' hDLe2, hnt2, ?_⟩
    rcases hdich' with hnoop | ⟨hS1, hL1⟩
    · rw [hnoop] at hdich2 ⊢
      rcases hdich2 with hnoop2 | ⟨hS2, hL2⟩
      · exact Or.inl hnoop2
      · refine Or.inr ⟨hS2, ?_⟩
        simp only [List.length_cons]
        omega
    · refine Or.inr ?_
      rcases hdich2 with hnoop2 | ⟨hS2, hL2⟩
      · rw [hnoop2]
        refine ⟨hS1, ?_⟩
        simp only [List.length_cons]
        omega
      · refine ⟨lt_trans hS2 hS1, ?_⟩
        simp only [List.length_cons]
        omega

theorem pop_MInv (g : DGraph) (src v : Nat) (dist : List (Option Int))
    (q : List Nat) (hInv : Inv g src dist (v :: q)) : MInv g src v (dist, q) := by
  obtain ⟨hlen, hnodup, hqb, hsrc0, hnonneg, hPT, htense⟩ := hInv
  refine ⟨hlen, hnodup.of_cons, fun x hx => hqb x (List.mem_cons_of_mem v hx),
    hsrc0, hnonneg, hPT, ?_⟩
  intro u i hpos ht
  rcases List.mem_cons.mp (htense u i hpos ht) with h | h
  · exact Or.inr h
  · exact Or.inl h

theorem restore_Inv (g : DGraph) (src v : Nat) (dq : List (Option Int) × List Nat)
    (hMInv : MInv g src v dq)
    (hnt : ∀ j, 0 < wt g v j → ¬ tense g dq.1 v j) : Inv g src dq.1 dq.2 := by
  obtain ⟨hlen, hnodup, hqb, hsrc0, hnonneg, hPT, htense⟩ := hMInv
  refine ⟨hlen, hnodup, hqb, hsrc0, hnonneg, hPT, ?_⟩
  intro u i hpos ht
  rcases htense u i hpos ht with h | h
  · exact h
  · subst h
    exact absurd ht (hnt i hpos)

/-- The `while queue:` loop of `dijkstra` terminates within the potential
bound and its final state satisfies the loop invariant with an empty queue
(in particular no edge is improvable any more). -/
theorem dijkstraLoop_correct (g : DGraph) (hw : Wf g) (src : Nat) :
    ∀ fuel (dist : List (Option Int)) (queue : List Nat),
      Inv g src dist queue →
      SumF g dist * (g.v_count + 1) + queue.length < fuel →
      ∃ final, dijkstraLoop g fuel dist queue = some final ∧ Inv g src final [] := by
  intro fuel
  induction fuel with
  | zero =>
    intro dist queue _ hP
    exact absurd hP (by omega)
  | succ f ih =>
    intro dist queue hInv hP
    cases queue with
    | nil => exact ⟨dist, rfl, hInv⟩
    | cons v q =>
      have hMInv := pop_MInv g src v dist q hInv
      have hpre : ∀ j, j ∉ List.range g.v_count → 0 < wt g v j →
          ¬ tense g (dist, q).1 v j := by
        intro j hj hpos
        rw [List.mem_range] at hj
        rw [wt_out g hw v j (Or.inr (by omega))] at hpos
        exact absurd hpos (by omega)
      obtain ⟨hInv', hDLe', hnt', hdich'⟩ := relaxAll_go g hw src v
        (List.range g.v_count) (dist, q) hMInv (fun i hi => List.mem_range.mp hi) hpre
      have hInvOut : Inv g src ((List.range g.v_count).foldl (relaxStep g v) (dist, q)).1
          ((List.range g.v_count).foldl (relaxStep g v) (dist, q)).2 :=
        restore_Inv g src v _ hInv' hnt'
      have hstep : dijkstraLoop g (f + 1) dist (v :: q)
          = dijkstraLoop g f ((List.range g.v_count).foldl (relaxStep g v) (dist, q)).1
              ((List.range g.v_count).foldl (relaxStep g v) (dist, q)).2 := by
        simp [dijkstraLoop, relaxAll]
      have hP' : SumF g ((List.range g.v_count).foldl (relaxStep g v) (dist, q)).1
          * (g.v_count + 1)
          + ((List.range g.v_count).foldl (relaxStep g v) (dist, q)).2.length < f := by
        have hP2 : SumF g dist * (g.v_count + 1) + (q.length + 1) < f + 1 := by
          simpa using hP
        rcases hdich' with hnoop | ⟨hS, hL⟩
        · rw [hnoop]
          show SumF g dist * (g.v_count + 1) + q.length < f
          omega
        · have hS2 : SumF g ((List.range g.v_count).foldl (relaxStep g v) (dist, q)).1
              < SumF g dist := hS
          have hL2 : ((List.range g.v_count).foldl (relaxStep g v) (dist, q)).2.length
              ≤ q.length + g.v_count := by
            simpa using hL
          have h1 : SumF g ((List.range g.v_count).foldl (relaxStep g v) (dist, q)).1
              * (g.v_count + 1) + (g.v_count + 1)
              ≤ SumF g dist * (g.v_count + 1) := by
            calc SumF g ((List.range g.v_count).foldl (relaxStep g v) (dist, q)).1
                  * (g.v_count + 1) + (g.v_count + 1)
                = (SumF g ((List.range g.v_count).foldl (relaxStep g v) (dist, q)).1 + 1)
                  * (g.v_count + 1) := by ring
              _ ≤ SumF g dist * (g.v_count + 1) :=
                  Nat.mul_le_mul_right _ (by omega)
          omega
      obtain ⟨final, hfinal, hInvF⟩ := ih _ _ hInvOut hP'
      exact ⟨final, by rw [hstep]; exact hfinal, hInvF⟩

/-- The initial state of `dijkstra` satisfies the loop invariant. -/
theorem dijkstra_init_Inv (g : DGraph) (_hw : Wf g) (src : Nat)
    (hsrc : src < g.v_count) :
    Inv g src ((List.replicate g.v_count none).set src (some 0)) [src] := by
  have hlen : ((List.replicate g.v_count (none : Option Int)).set src (some 0)).length
      = g.v_count := by simp
  have hget : ∀ j, ((List.replicate g.v_count (none : Option Int)).set src
      (some 0)).getD j none = if src = j then some 0 else none := by
    intro j
    rw [getD_set]
    by_cases hsj : src = j
    · rw [if_pos ⟨hsj, by simpa using hsrc⟩, if_pos hsj]
    · rw [if_neg (fun hc => hsj hc.1), if_neg hsj]
      rcases Nat.lt_or_ge j g.v_count with hj | hj
      · simp [List.getD, List.getElem?_replicate, hj]
      · exact List.getD_eq_default _ _ (by simpa using hj)
  have hsrc0 : ((List.replicate g.v_count (none : Option Int)).set src
      (some 0)).getD src none = some 0 := by
    rw [hget, if_pos rfl]
  refine ⟨hlen, List.nodup_singleton src, ?_, hsrc0, ?_, ?_, ?_⟩
  · intro x hx
    rw [List.mem_singleton.mp hx]
    exact hsrc
  · intro i d hd
    rw [hget] at hd
    by_cases hsi : src = i
    · rw [if_pos hsi] at hd
      injection hd with hd
      omega
    · rw [if_neg hsi] at hd
      cases hd
  · intro i d hd
    rw [hget] at hd
    by_cases hsi : src = i
    · rw [if_pos hsi] at hd
      injection hd with hd
      subst hsi
      exact ⟨[], hd ▸ PT.nil 0 hsrc0 (le_refl 0)⟩
    · rw [if_neg hsi] at hd
      cases hd
  · intro u i _ ht
    obtain ⟨du, hdu, _⟩ := tense_dest ht
    rw [hget] at hdu
    by_cases hsu : src = u
    · rw [List.mem_singleton]
      exact hsu.symm
    · rw [if_neg hsu] at hdu
      cases hdu

/-- When no edge is improvable, every walk from `src` witnesses an upper
bound on the final distance of its endpoint. -/
theorem no_tense_walk_bound (g : DGraph) (final : List (Option Int)) (src : Nat)
    (hsrc0 : final.getD src none = some 0)
    (hnt : ∀ u i, 0 < wt g u i → ¬ tense g final u i) :
    ∀ W i, IsWalkFrom g src i W →
      ∃ di, final.getD i none = some di ∧ di ≤ wsum g W := by
  intro W
  induction W using List.reverseRecOn with
  | nil =>
    rintro i ⟨hh, _, _⟩
    simp at hh
  | append_singleton W' x ih =>
    rintro i ⟨hh, hl, hc⟩
    have hx : x = i := by
      rw [List.getLast?_concat] at hl
      injection hl
    subst hx
    cases W' with
    | nil =>
      simp only [List.nil_append, List.head?_cons, Option.some.injEq] at hh
      have hh2 : src = x := hh.symm
      subst hh2
      exact ⟨0, hsrc0, by simp [wsum]⟩
    | cons a rest =>
      have hne : a :: rest ≠ [] := List.cons_ne_nil a rest
      have hu : (a :: rest).getLast? = some ((a :: rest).getLast hne) :=
        List.getLast?_eq_getLast (a :: rest) hne
      set u := (a :: rest).getLast hne with hudef
      have hW'walk : IsWalkFrom g src u (a :: rest) := by
        refine ⟨?_, hu, (List.chain'_append.mp hc).1⟩
        simpa using hh
      obtain ⟨du, hdu, hdule⟩ := ih u hW'walk
      have hedge : EdgeP g u x := by
        have hconn := (List.chain'_append.mp hc).2.2
        exact hconn u (by rw [hu]; rfl) x (by simp)
      obtain ⟨di, hdi, hdile⟩ := not_tense_dest (hnt u x hedge.2.2) hdu
      refine ⟨di, hdi, ?_⟩
      rw [wsum_snoc g (a :: rest) u x hu]
      omega

theorem wsum_append (g : DGraph) :
    ∀ (A B : List Nat) (u b : Nat), A.getLast? = some u → B.head? = some b →
      wsum g (A ++ B) = wsum g A + wt g u b + wsum g B := by
  intro A
  induction A with
  | nil =>
    intro B u b h _
    simp at h
  | cons a rest ih =>
    intro B u b hlast hhead
    cases rest with
    | nil =>
      simp only [List.getLast?_singleton, Option.some.injEq] at hlast
      subst hlast
      cases B with
      | nil => simp at hhead
      | cons c B' =>
        simp only [List.head?_cons, Option.some.injEq] at hhead
        subst hhead
        simp only [List.singleton_append]
        rw [wsum, wsum]
        ring
    | cons c rest' =>
      have hlast' : (c :: rest').getLast? = some u := by
        rwa [List.getLast?_cons_cons] at hlast
      have := ih B u b hlast' hhead
      simp only [List.cons_append] at this ⊢
      cases B with
      | nil => simp at hhead
      | cons d B' =>
        rw [wsum, this, wsum]
        ring

/-- Any walk can be shortened to a vertex-disjoint path (a simple path) with
no greater weight: repeatedly cut the part between two visits of the head. -/
theorem walk_shorten (g : DGraph) :
    ∀ (n : Nat) (W : List Nat) (src i : Nat), W.length ≤ n →
      IsWalkFrom g src i W →
      ∃ P, IsWalkFrom g src i P ∧ P.Nodup ∧ wsum g P ≤ wsum g W := by
  intro n
  induction n with
  | zero =>
    rintro W src i hlen ⟨hh, _, _⟩
    have hWnil : W = [] := List.length_eq_zero.mp (by omega)
    rw [hWnil] at hh
    simp at hh
  | succ n ih =>
    rintro W src i hlen ⟨hh, hl, hc⟩
    cases W with
    | nil => simp at hh
    | cons a rest =>
      simp only [List.head?_cons, Option.some.injEq] at hh
      have hh2 : src = a := hh.symm
      subst hh2
      cases rest with
      | nil =>
        simp only [List.getLast?_singleton, Option.some.injEq] at hl
        exact ⟨[src], ⟨rfl, by rw [hl]; simp, List.chain'_singleton src⟩,
          List.nodup_singleton src, le_refl _⟩
      | cons b rest' =>
        have htail_walk : IsWalkFrom g b i (b :: rest') := by
          refine ⟨rfl, ?_, (List.chain'_cons.mp hc).2⟩
          rwa [List.getLast?_cons_cons] at hl
        have hedge_sb : EdgeP g src b := (List.chain'_cons.mp hc).1
        obtain ⟨P', ⟨hh', hl', hc'⟩, hnd', hle'⟩ :=
          ih (b :: rest') b i (by simpa using hlen) htail_walk
        have hW_wsum : wsum g (src :: b :: rest')
            = wt g src b + wsum g (b :: rest') := by rw [wsum]
        by_cases hmem : src ∈ P'
        · obtain ⟨A, B, hsplit⟩ := List.append_of_mem hmem
          have hcSplit : List.Chain' (EdgeP g) (A ++ src :: B) := hsplit ▸ hc'
          have hcB : List.Chain' (EdgeP g) (src :: B) := hcSplit.right_of_append
          have hlB : (src :: B).getLast? = some i := by
            have hl2 : (A ++ src :: B).getLast? = some i := hsplit ▸ hl'
            rwa [List.getLast?_append_of_ne_nil _ (List.cons_ne_nil src B)] at hl2
          have hndB : (src :: B).Nodup :=
            (hsplit ▸ hnd' : (A ++ src :: B).Nodup).of_append_right
          have hwsumB : wsum g (src :: B) ≤ wsum g P' := by
            by_cases hA : A = []
            · rw [hsplit, hA, List.nil_append]
            · have hua : A.getLast? = some (A.getLast hA) :=
                List.getLast?_eq_getLast A hA
              rw [hsplit, wsum_append g A (src :: B) (A.getLast hA) src hua rfl]
              have hcA : List.Chain' (EdgeP g) A := hcSplit.left_of_append
              have h1 : 0 ≤ wsum g A := wsum_nonneg g A hcA
              have h2 : 0 ≤ wt g (A.getLast hA) src := by
                have hconn := (List.chain'_append.mp hcSplit).2.2
                have := hconn (A.getLast hA) (by rw [hua]; rfl) src (by simp)
                exact le_of_lt this.2.2
              omega
          refine ⟨src :: B, ⟨rfl, hlB, hcB⟩, hndB, ?_⟩
          have h3 : 0 ≤ wsum g (b :: rest') :=
            wsum_nonneg g _ (List.chain'_cons.mp hc).2
          have h4 : 0 < wt g src b := hedge_sb.2.2
          omega
        · refine ⟨src :: P', ⟨rfl, ?_, ?_⟩, ?_, ?_⟩
          · cases P' with
            | nil => simp at hh'
            | cons p ps => rwa [List.getLast?_cons_cons]
          · cases P' with
            | nil => simp at hh'
            | cons p ps =>
              simp only [List.head?_cons, Option.some.injEq] at hh'
              subst hh'
              exact List.chain'_cons.mpr ⟨hedge_sb, hc'⟩
          · exact List.nodup_cons.mpr ⟨hmem, hnd'⟩
          · cases P' with
            | nil => simp at hh'
            | cons p ps =>
              simp only [List.head?_cons, Option.some.injEq] at hh'
              subst hh'
              rw [wsum, hW_wsum]
              omega

theorem sumF_init_le (g : DGraph) (src : Nat) (hsrc : src < g.v_count) :
    SumF g ((List.replicate g.v_count none).set src (some 0))
      ≤ g.v_count * ((totalW g).toNat + 1) := by
  have hrep : SumF g (List.replicate g.v_count (none : Option Int))
      = g.v_count * ((totalW g).toNat + 1) := by
    unfold SumF
    rw [List.map_replicate, List.sum_replicate, smul_eq_mul]
    rfl
  have h := sum_map_set (fB g) none (List.replicate g.v_count (none : Option Int))
    src (by simpa using hsrc) (some 0)
  have hfb0 : fB g (some 0) = 0 := rfl
  unfold SumF at hrep ⊢
  omega

/-- Full behaviour of `dijkstra` on well-formed graphs with an in-range
source: the loop terminates and the result holds the single-source shortest
distances, with `none` (`float('inf')`) exactly at unreachable vertices. -/
theorem dijkstra_correct (g : DGraph) (hw : Wf g) (src : Nat)
    (hsrc : src < g.v_count) :
    ∃ final, dijkstra g src = some final
      ∧ final.length = g.v_count
      ∧ final.getD src none = some 0
      ∧ ∀ i, (final.getD i none = none ↔ ¬ ∃ W, IsWalkFrom g src i W)
          ∧ ∀ d, final.getD i none = some d →
              ((∃ P, IsWalkFrom g src i P ∧ P.Nodup ∧ wsum g P = d)
               ∧ ∀ W, IsWalkFrom g src i W → d ≤ wsum g W) := by
  have hΦ : SumF g ((List.replicate g.v_count none).set src (some 0))
      * (g.v_count + 1) + ([src] : List Nat).length < dijkFuel g := by
    have h1 := sumF_init_le g src hsrc
    have h2 : SumF g ((List.replicate g.v_count none).set src (some 0))
        * (g.v_count + 1) ≤ g.v_count * ((totalW g).toNat + 1) * (g.v_count + 1) :=
      Nat.mul_le_mul_right _ h1
    unfold dijkFuel
    simp only [List.length_singleton]
    omega
  obtain ⟨final, hloop, hInvF⟩ := dijkstraLoop_correct g hw src (dijkFuel g) _ [src]
    (dijkstra_init_Inv g hw src hsrc) hΦ
  obtain ⟨hlen, _, _, hsrc0, hnonneg, hPT, htense⟩ := hInvF
  have hnt : ∀ u i, 0 < wt g u i → ¬ tense g final u i := by
    intro u i hpos ht
    exact absurd (htense u i hpos ht) (List.not_mem_nil u)
  refine ⟨final, hloop, hlen, hsrc0, ?_⟩
  intro i
  constructor
  · constructor
    · rintro hnone ⟨W, hW⟩
      obtain ⟨di, hdi, _⟩ := no_tense_walk_bound g final src hsrc0 hnt W i hW
      rw [hnone] at hdi
      cases hdi
    · intro hnreach
      cases hfi : final.getD i none with
      | none => rfl
      | some d =>
        obtain ⟨E, hE⟩ := hPT i d hfi
        obtain ⟨W, hWwalk, _⟩ := PT_walk hE
        exact absurd ⟨W, hWwalk⟩ hnreach
  · intro d hd
    constructor
    · obtain ⟨E, hE⟩ := hPT i d hd
      obtain ⟨W0, hW0walk, hW0sum⟩ := PT_walk hE
      obtain ⟨P, hPwalk, hPnd, hPle⟩ :=
        walk_shorten g W0.length W0 src i (le_refl _) hW0walk
      obtain ⟨di, hdi, hdile⟩ := no_tense_walk_bound g final src hsrc0 hnt P i hPwalk
      rw [hd] at hdi
      injection hdi with hdi
      exact ⟨P, hPwalk, hPnd, by omega⟩
    · intro W hWwalk
      obtain ⟨di, hdi, hdile⟩ := no_tense_walk_bound g final src hsrc0 hnt W i hWwalk
      rw [hd] at hdi
      injection hdi with hdi
      omega

/-- Claim C3: for `v_count > 0` and an in-range source, `dijkstra` returns a
sequence of length `v_count` with `distance[src] = 0`, each finite
`distance[i]` the minimum total edge weight over directed paths from `src`
to `i` (attained by a simple path and a lower bound for every walk), and the
infinity sentinel `none` exactly at the vertices unreachable from `src`. -/
theorem claim_C3_dijkstra :
    ∀ g, Wf g → 0 < g.v_count → ∀ src, src < g.v_count →
      ∃ final, dijkstra g src = some final
        ∧ final.length = g.v_count
        ∧ final.getD src none = some 0
        ∧ ∀ i, i < g.v_count →
            ((final.getD i none = none ↔ ¬ ∃ W, IsWalkFrom g src i W)
            ∧ ∀ d, final.getD i none = some d →
                ((∃ P, IsWalkFrom g src i P ∧ P.Nodup ∧ wsum g P = d)
                 ∧ ∀ W, IsWalkFrom g src i W → d ≤ wsum g W)) := by
  intro g hw _ src hsrc
  obtain ⟨final, h1, h2, h3, h4⟩ := dijkstra_correct g hw src hsrc
  exact ⟨final, h1, h2, h3, fun i _ => h4 i⟩

/-- Witness for C3 at a concrete 2-vertex graph. -/
theorem claim_C3_dijkstra_witness :
    ∃ final, dijkstra (initGraph (some [(0, 1, 2)])) 0 = some final
      ∧ final.length = (initGraph (some [(0, 1, 2)])).v_count
      ∧ final.getD 0 none = some 0
      ∧ ∀ i, i < (initGraph (some [(0, 1, 2)])).v_count →
          ((final.getD i none = none
              ↔ ¬ ∃ W, IsWalkFrom (initGraph (some [(0, 1, 2)])) 0 i W)
          ∧ ∀ d, final.getD i none = some d →
              ((∃ P, IsWalkFrom (initGraph (some [(0, 1, 2)])) 0 i P ∧ P.Nodup
                  ∧ wsum (initGraph (some [(0, 1, 2)])) P = d)
               ∧ ∀ W, IsWalkFrom (initGraph (some [(0, 1, 2)])) 0 i W
                  → d ≤ wsum (initGraph (some [(0, 1, 2)])) W)) :=
  claim_C3_dijkstra (initGraph (some [(0, 1, 2)])) (by decide) (by decide) 0 (by decide)

theorem dijkstra_ne_none (g : DGraph) (hw : Wf g) (src : Nat)
    (hsrc : src < g.v_count) : dijkstra g src ≠ none := by
  obtain ⟨final, h1, _⟩ := dijkstra_correct g hw src hsrc
  rw [h1]
  simp

/-- Claim C9: `has_cycle` always terminates (the per-root walk either
exhausts its frontiers or short-circuits within the proven fuel bound), and
`dijkstra`'s FIFO relaxation loop always empties its queue on well-formed
graphs with an in-range source, because each re-enqueue strictly decreases a
bounded non-negative distance. -/
theorem claim_C9_termination :
    (∀ g, has_cycle g ≠ none)
    ∧ ∀ g src, Wf g → 0 < g.v_count → src < g.v_count → dijkstra g src ≠ none :=
  ⟨has_cycle_ne_none, fun g src hw _ hsrc => dijkstra_ne_none g hw src hsrc⟩

/-- Witness for C9 on a concrete graph. -/
theorem claim_C9_termination_witness :
    has_cycle (initGraph (some [(0, 1, 2)])) ≠ none
    ∧ dijkstra (initGraph (some [(0, 1, 2)])) 0 ≠ none :=
  ⟨claim_C9_termination.1 _,
    claim_C9_termination.2 (initGraph (some [(0, 1, 2)])) 0 (by decide) (by decide)
      (by decide)⟩

end DG
